import Mathlib

/-!
# Verification of the offshelf spine-detection pipeline

A shallow embedding of the book-spine detection pipeline
(`src/lib/opencv/lineDetection.ts`, `src/lib/opencv/spineExtractor.ts`,
`src/lib/opencv/utils.ts`, `src/lib/detection/spineDetector.ts`).

Modelling conventions:
* JavaScript numbers are idealised as exact rationals (`ℚ`); numeric literals
  such as `0.01`, `0.15`, `0.8` are the exact rationals `1/100`, `3/20`, `4/5`.
* `Math.round` is `jround q = ⌊q + 1/2⌋` (round half toward `+∞`), which is the
  exact behaviour of JavaScript `Math.round` on finite numbers.
* Pixel matrices are lists of rows of rational brightness values (the code
  converts to grayscale before using pixel values in the parts modelled here).
* The OpenCV primitives that cannot be embedded (Canny, Hough, JPEG encoding,
  `sharp` statistics) are abstracted: the per-row output of the Hough-based
  vertical line finder is an oracle parameter `rowLines`, and the channel
  means of a cropped spine buffer are an oracle parameter `channels`; all
  arithmetic performed on their results is embedded faithfully.
* The angle computation of `findVerticalLines` uses `Math.atan2`, modelled
  over `ℝ` in a dedicated section below.
-/

/-- JavaScript `Math.round`: round half toward positive infinity. -/
def jround (q : ℚ) : ℤ := ⌊q + 1/2⌋

/-- `DetectionConfig` from `lineDetection.ts`. -/
structure DetectionConfig where
  minSpineWidthPercent : ℚ
  maxSpineWidthPercent : ℚ
  verticalAngleTolerance : ℚ
  minLineLengthPercent : ℚ
  cannyLowThreshold : ℚ
  cannyHighThreshold : ℚ
  maxImageDimension : ℚ
deriving DecidableEq

/-- `DEFAULT_CONFIG` from `lineDetection.ts` (`0.8` is the exact rational `4/5`). -/
def DEFAULT_CONFIG : DetectionConfig :=
  ⟨4/5, 12, 15, 15, 30, 120, 2000⟩

/-- `DetectedLine` from `lineDetection.ts`.  The `angle` field is kept as a
rational here; the real-valued angle arithmetic of `findVerticalLines` is
modelled separately below. -/
structure DetectedLine where
  x1 : ℚ
  y1 : ℚ
  x2 : ℚ
  y2 : ℚ
  angle : ℚ
  avgX : ℚ
deriving DecidableEq

/-- `ShelfRow` from `lineDetection.ts`. -/
structure ShelfRow where
  y : ℚ
  height : ℚ
deriving DecidableEq

/-- `BoundingBox` from `spineExtractor.ts`. -/
structure BoundingBox where
  x : ℚ
  y : ℚ
  width : ℚ
  height : ℚ
deriving DecidableEq

/-- One entry of the list returned by `calculateSpineRegions`. -/
structure SpineRegion where
  boundingBox : BoundingBox
  leftEdge : Option DetectedLine
  rightEdge : Option DetectedLine
deriving DecidableEq

/-- `DetectedSpine` from `spineExtractor.ts`; the encoded `imageBuffer` is not
representable and is abstracted away (its channel statistics enter through the
`channels` oracle of `detectSpines`). -/
structure DetectedSpine where
  index : ℕ
  boundingBox : BoundingBox
  leftEdge : Option DetectedLine
  rightEdge : Option DetectedLine
deriving DecidableEq

/-- The comparison used by `lines.sort((a, b) => a.avgX - b.avgX)`. -/
def lineLe (a b : DetectedLine) : Prop := a.avgX ≤ b.avgX

instance : DecidableRel lineLe := fun a b => inferInstanceAs (Decidable (a.avgX ≤ b.avgX))

instance : IsTotal DetectedLine lineLe := ⟨fun a b => le_total a.avgX b.avgX⟩

instance : IsTrans DetectedLine lineLe := ⟨fun _ _ _ h h' => le_trans h h'⟩

/-- `[...lines].sort((a, b) => a.avgX - b.avgX)`: sort ascending by `avgX`. -/
def sortLines (lines : List DetectedLine) : List DetectedLine :=
  lines.insertionSort lineLe

/-- The grouping loop of `mergeNearbyLines` (`lineDetection.ts:167-184`).
State: remaining input, last line added to the current group, the rest of the
current group in reverse order.  A new group starts whenever the next line's
`avgX` is more than `mergeThreshold` away from the `avgX` of the line added
last (`lastInGroup`). -/
def groupLinesAux (mergeThreshold : ℚ) :
    List DetectedLine → DetectedLine → List DetectedLine → List (List DetectedLine)
  | [], lastInGroup, revRest => [(lastInGroup :: revRest).reverse]
  | current :: rest, lastInGroup, revRest =>
    if |current.avgX - lastInGroup.avgX| ≤ mergeThreshold then
      groupLinesAux mergeThreshold rest current (lastInGroup :: revRest)
    else
      (lastInGroup :: revRest).reverse :: groupLinesAux mergeThreshold rest current []

/-- The groups ("merged clusters") formed by `mergeNearbyLines` before each is
collapsed by `mergeGroup`. -/
def groupLines (mergeThreshold : ℚ) : List DetectedLine → List (List DetectedLine)
  | [] => []
  | first :: rest => groupLinesAux mergeThreshold rest first []

/-- `mergeGroup` from `lineDetection.ts:192-211`. -/
def mergeGroup (lines : List DetectedLine) : DetectedLine :=
  match lines with
  | [] => ⟨0, 0, 0, 0, 0, 0⟩
  | [l] => l
  | l :: ls =>
    let n : ℚ := (l :: ls).length
    let avgX1 := ((l :: ls).map (fun a => a.x1)).sum / n
    let avgY1 := (ls.map (fun a => min a.y1 a.y2)).foldr min (min l.y1 l.y2)
    let avgX2 := ((l :: ls).map (fun a => a.x2)).sum / n
    let avgY2 := (ls.map (fun a => max a.y1 a.y2)).foldr max (max l.y1 l.y2)
    let avgAngle := ((l :: ls).map (fun a => a.angle)).sum / n
    let avgX := (avgX1 + avgX2) / 2
    ⟨(jround avgX1 : ℚ), (jround avgY1 : ℚ), (jround avgX2 : ℚ), (jround avgY2 : ℚ),
      avgAngle, avgX⟩

/-- `mergeNearbyLines` from `lineDetection.ts:157-187` (default threshold 8):
sort by `avgX`, group greedily, collapse each group with `mergeGroup`. -/
def mergeNearbyLines (lines : List DetectedLine) (mergeThreshold : ℚ) : List DetectedLine :=
  (groupLines mergeThreshold (sortLines lines)).map mergeGroup

/-- The minimum spine width `imageWidth * (config.minSpineWidthPercent / 100)`. -/
def spineMinWidth (imageWidth : ℚ) (config : DetectionConfig) : ℚ :=
  imageWidth * (config.minSpineWidthPercent / 100)

/-- The maximum spine width `imageWidth * (config.maxSpineWidthPercent / 100)`. -/
def spineMaxWidth (imageWidth : ℚ) (config : DetectionConfig) : ℚ :=
  imageWidth * (config.maxSpineWidthPercent / 100)

/-- The gap loop of `calculateSpineRegions` (`spineExtractor.ts:71-89`): for
each pair of consecutive lines, accept the gap when
`gapWidth >= minWidth && gapWidth <= maxWidth` (non-strict comparisons in the
source). -/
def gapRegionsLoop (minWidth maxWidth imageHeight : ℚ) :
    List DetectedLine → List SpineRegion
  | leftLine :: rightLine :: rest =>
    (if minWidth ≤ rightLine.avgX - leftLine.avgX ∧ rightLine.avgX - leftLine.avgX ≤ maxWidth
     then [⟨⟨(jround leftLine.avgX : ℚ), 0, (jround (rightLine.avgX - leftLine.avgX) : ℚ),
            imageHeight⟩, some leftLine, some rightLine⟩]
     else [])
      ++ gapRegionsLoop minWidth maxWidth imageHeight (rightLine :: rest)
  | _ => []

/-- `calculateSpineRegions` from `spineExtractor.ts:35-108`. -/
def calculateSpineRegions (lines : List DetectedLine) (imageWidth imageHeight : ℚ)
    (config : DetectionConfig) : List SpineRegion :=
  let minWidth := spineMinWidth imageWidth config
  let maxWidth := spineMaxWidth imageWidth config
  match lines with
  | [] => [⟨⟨0, 0, imageWidth, imageHeight⟩, none, none⟩]
  | firstLine :: rest =>
    let leading :=
      if minWidth < firstLine.avgX ∧ firstLine.avgX < maxWidth then
        [⟨⟨0, 0, (jround firstLine.avgX : ℚ), imageHeight⟩, none, some firstLine⟩]
      else []
    let gaps := gapRegionsLoop minWidth maxWidth imageHeight (firstLine :: rest)
    let lastLine := rest.getLastD firstLine
    let rightGap := imageWidth - lastLine.avgX
    let trailing :=
      if minWidth < rightGap ∧ rightGap < maxWidth then
        [⟨⟨(jround lastLine.avgX : ℚ), 0, (jround rightGap : ℚ), imageHeight⟩,
          some lastLine, none⟩]
      else []
    leading ++ gaps ++ trailing

/-- A dark band `{start, end}` found by the brightness scan of
`detectShelfRows` (`end` is a Lean keyword, hence `bStart`/`bEnd`). -/
structure Band where
  bStart : ℕ
  bEnd : ℕ
deriving DecidableEq

/-- `mat.cols`: the width of the pixel matrix (length of its first row). -/
def matWidth (mat : List (List ℚ)) : ℕ := (mat.headD []).length

/-- `sum += gray.ucharAt(y, x)` over `x = 0 .. width-1` (out-of-range reads
modelled as 0; they do not occur on rectangular matrices). -/
def rowPixelSum (width : ℕ) (row : List ℚ) : ℚ :=
  ((List.range width).map (fun x => row.getD x 0)).sum

/-- Per-row mean brightness (`lineDetection.ts:295-302`). -/
def rowBrightnessList (mat : List (List ℚ)) : List ℚ :=
  mat.map (fun row => rowPixelSum (matWidth mat) row / (matWidth mat : ℚ))

/-- `Math.floor(height * 0.01) || 1` (`lineDetection.ts:306`). -/
def smoothWindow (height : ℕ) : ℕ :=
  if height / 100 = 0 then 1 else height / 100

/-- The smoothed brightness profile (`lineDetection.ts:307-316`): moving
average over indices `max 0 (i-w) .. min (h-1) (i+w)`. -/
def smoothedList (mat : List (List ℚ)) : List ℚ :=
  let rb := rowBrightnessList mat
  let h := mat.length
  let w := smoothWindow h
  (List.range h).map (fun i =>
    let lo := i - w
    let hi := min (h - 1) (i + w)
    let vals := (List.range (hi + 1 - lo)).map (fun k => rb.getD (lo + k) 0)
    vals.sum / (vals.length : ℚ))

/-- Mean of a list of rationals (`reduce((a, b) => a + b, 0) / length`). -/
def listAvg (l : List ℚ) : ℚ := l.sum / (l.length : ℚ)

/-- `darkThreshold = avgBrightness * 0.4` (`lineDetection.ts:319-322`). -/
def darkThresholdOf (mat : List (List ℚ)) : ℚ :=
  listAvg (smoothedList mat) * (2/5)

/-- Which rows count as dark (`smoothed[y] < darkThreshold`). -/
def darkFlags (mat : List (List ℚ)) : List Bool :=
  (smoothedList mat).map (fun b => decide (b < darkThresholdOf mat))

/-- The dark-band scan of `lineDetection.ts:325-345`.  State: remaining flags,
current row index `y`, `bandStart` (`none` encodes `-1`).  A band is kept when
its height exceeds `minBand = height * 0.01`; a band still open at the end of
the image is closed at `end = height` under the same condition. -/
def bandsAux (minBand : ℚ) : List Bool → ℕ → Option ℕ → List Band
  | [], _, none => []
  | [], y, some s => if (y : ℚ) - (s : ℚ) > minBand then [⟨s, y⟩] else []
  | f :: fs, y, none =>
    if f then bandsAux minBand fs (y + 1) (some y)
    else bandsAux minBand fs (y + 1) none
  | f :: fs, y, some s =>
    if f then bandsAux minBand fs (y + 1) (some s)
    else
      (if (y : ℚ) - (s : ℚ) > minBand then [⟨s, y⟩] else [])
        ++ bandsAux minBand fs (y + 1) none

/-- All qualifying dark bands of the image. -/
def darkBands (mat : List (List ℚ)) : List Band :=
  bandsAux ((mat.length : ℚ) * (1/100)) (darkFlags mat) 0 none

/-- `lineDetection.ts:347-352`: keep only dark bands whose center lies
strictly inside the middle 70% of the image (`margin = height * 0.15`). -/
def separatorsOf (mat : List (List ℚ)) : List Band :=
  (darkBands mat).filter (fun b =>
    let center := ((b.bStart : ℚ) + (b.bEnd : ℚ)) / 2
    decide ((mat.length : ℚ) * (15/100) < center) &&
      decide (center < (mat.length : ℚ) - (mat.length : ℚ) * (15/100)))

/-- The middle-rows loop of `lineDetection.ts:367-373`: for consecutive dark
bands, the bright region between them becomes a row when taller than 10% of
the image height. -/
def middleRows (height : ℕ) : List Band → List ShelfRow
  | b1 :: b2 :: rest =>
    (if (height : ℚ) * (1/10) < (b2.bStart : ℚ) - (b1.bEnd : ℚ)
     then [⟨(b1.bEnd : ℚ), (b2.bStart : ℚ) - (b1.bEnd : ℚ)⟩]
     else [])
      ++ middleRows height (b2 :: rest)
  | _ => []

/-- Candidate rows from the separators (`lineDetection.ts:358-379`): the
region above the first band, the regions between consecutive bands, and the
region below the last band, each kept when taller than 10% of the image. -/
def candidateRows (height : ℕ) (separators : List Band) : List ShelfRow :=
  match separators with
  | [] => []
  | s0 :: rest =>
    (if (height : ℚ) * (1/10) < (s0.bStart : ℚ) then [⟨0, (s0.bStart : ℚ)⟩] else [])
      ++ middleRows height (s0 :: rest)
      ++ (let lastEnd := (rest.getLastD s0).bEnd
          if (height : ℚ) * (1/10) < (height : ℚ) - (lastEnd : ℚ)
          then [⟨(lastEnd : ℚ), (height : ℚ) - (lastEnd : ℚ)⟩]
          else [])

/-- `rows.filter(r => r.height > height * 0.15)` (`lineDetection.ts:382`). -/
def validRowsOf (mat : List (List ℚ)) : List ShelfRow :=
  (candidateRows mat.length (separatorsOf mat)).filter
    (fun r => decide ((mat.length : ℚ) * (15/100) < r.height))

/-- `detectShelfRows` from `lineDetection.ts:277-389`.  The input matrix is
the (already grayscale) working-resolution image; the `config` parameter of
the source is unused by the function body and omitted.  Returns the single
full-image row when no separator survives or fewer than two rows remain. -/
def detectShelfRows (mat : List (List ℚ)) : List ShelfRow :=
  let h := mat.length
  if separatorsOf mat = [] then [⟨0, (h : ℚ)⟩]
  else if (validRowsOf mat).length < 2 then [⟨0, (h : ℚ)⟩]
  else validRowsOf mat

/-- `resizeIfNeeded` from `utils.ts:97-118`, dimensions only: if the longest
side exceeds `maxDimension`, scale both sides by `maxDimension / maxSide` and
round. -/
def resizeDims (width height : ℕ) (maxDimension : ℚ) : ℕ × ℕ :=
  let maxSide : ℕ := max width height
  if (maxSide : ℚ) ≤ maxDimension then (width, height)
  else
    let scale : ℚ := maxDimension / (maxSide : ℚ)
    ((jround ((width : ℚ) * scale)).toNat, (jround ((height : ℚ) * scale)).toNat)

/-- The clamping of `cropRegion` from `utils.ts:130-153`, dimensions only:
given the matrix size and the requested rectangle, returns the clamped
`(x, y, width, height)` of the actual crop. -/
def cropDims (cols rows x y w h : ℚ) : ℚ × ℚ × ℚ × ℚ :=
  let clampedX := max 0 (min x (cols - 1))
  let clampedY := max 0 (min y (rows - 1))
  (clampedX, clampedY, min w (cols - clampedX), min h (rows - clampedY))

/-- The indexing loop of `extractSpines` (`spineExtractor.ts:131-154`): spine
`i` takes the `i`-th region's bounding box and edges. -/
def extractSpinesAux : ℕ → List SpineRegion → List DetectedSpine
  | _, [] => []
  | i, r :: rest => ⟨i, r.boundingBox, r.leftEdge, r.rightEdge⟩ :: extractSpinesAux (i + 1) rest

/-- `extractSpines` from `spineExtractor.ts:118-157`, with the image matrix
abstracted to its dimensions (`width`, `height` are `originalMat.cols/rows`);
the JPEG crop buffers are not modelled. -/
def extractSpines (lines : List DetectedLine) (width height : ℚ)
    (config : DetectionConfig) : List DetectedSpine :=
  extractSpinesAux 0 (calculateSpineRegions lines width height config)

/-- The pure tail of `detectVerticalLines` (`lineDetection.ts:394-415`) after
the Hough transform: merge nearby raw lines (default threshold 8) and sort
left to right.  The raw Hough output is supplied by an oracle. -/
def detectVerticalLinesM (rawLines : List DetectedLine) : List DetectedLine :=
  sortLines (mergeNearbyLines rawLines 8)

/-- Scaling a detected line back to original-image coordinates
(`spineDetector.ts:96-103`). -/
def scaleLine (scaleX scaleY rowY : ℚ) (l : DetectedLine) : DetectedLine :=
  ⟨(jround (l.x1 * scaleX) : ℚ), (jround ((l.y1 + rowY) * scaleY) : ℚ),
    (jround (l.x2 * scaleX) : ℚ), (jround ((l.y2 + rowY) * scaleY) : ℚ),
    l.angle, l.avgX * scaleX⟩

/-- Making line positions relative to the cropped row
(`spineDetector.ts:113-117`). -/
def relLine (originalRowY : ℚ) (l : DetectedLine) : DetectedLine :=
  { l with y1 := l.y1 - originalRowY, y2 := l.y2 - originalRowY }

/-- Mean pixel brightness across channels
(`stats.channels.reduce((sum, ch) => sum + ch.mean, 0) / stats.channels.length`,
`spineDetector.ts:154`). -/
def spineAvgBrightness (channelMeans : List ℚ) : ℚ :=
  channelMeans.sum / (channelMeans.length : ℚ)

/-- `filteredSpines.forEach((spine, i) => { spine.index = i; })`
(`spineDetector.ts:161`). -/
def reindexSpines : ℕ → List DetectedSpine → List DetectedSpine
  | _, [] => []
  | i, s :: rest => { s with index := i } :: reindexSpines (i + 1) rest

/-- The post-aggregation quality filter of `detectSpines`
(`spineDetector.ts:143-161`): drop spines narrower than 1.5% of the full image
width or with mean channel brightness below 20; re-index the survivors from 0;
report the number discarded.  `channels box` abstracts the `sharp` channel
statistics of the crop at bounding box `box`. -/
def spineQualityFilter (allSpines : List DetectedSpine) (originalWidth : ℚ)
    (channels : BoundingBox → List ℚ) : List DetectedSpine × ℕ :=
  let minWidth := originalWidth * (15/1000)
  let kept := allSpines.filter (fun s =>
    !decide (s.boundingBox.width < minWidth) &&
      !decide (spineAvgBrightness (channels s.boundingBox) < 20))
  (reindexSpines 0 kept, allSpines.length - kept.length)

/-- One iteration of the per-row loop of `detectSpines`
(`spineDetector.ts:82-130`): merge and sort the row's raw lines, scale them to
original coordinates, make them row-relative, compute the clamped dimensions
of the original-image row crop, run `extractSpines` on it, then shift the
bounding boxes to absolute coordinates and offset the provisional indices by
the number of spines accumulated so far. -/
def processRow (origW origH scaleX scaleY : ℚ) (config : DetectionConfig)
    (startIdx : ℕ) (rawLines : List DetectedLine) (row : ShelfRow) : List DetectedSpine :=
  let lines := detectVerticalLinesM rawLines
  let scaled := lines.map (scaleLine scaleX scaleY row.y)
  let originalRowY : ℚ := (jround (row.y * scaleY) : ℚ)
  let originalRowHeight : ℚ := (jround (row.height * scaleY) : ℚ)
  let c := cropDims origW origH 0 originalRowY origW originalRowHeight
  let rowRelativeLines := scaled.map (relLine originalRowY)
  let spines := extractSpines rowRelativeLines c.2.2.1 c.2.2.2 config
  spines.map (fun s =>
    { s with
      boundingBox := { s.boundingBox with y := s.boundingBox.y + originalRowY },
      index := startIdx + s.index })

/-- The row accumulation loop of `detectSpines` (`spineDetector.ts:78-130`):
`i` is the row counter (feeding the `rowLines` oracle), `count` the number of
spines accumulated so far (`allSpines.length`). -/
def accumRows (origW origH scaleX scaleY : ℚ) (config : DetectionConfig)
    (rowLines : ℕ → List DetectedLine) :
    ℕ → ℕ → List ShelfRow → List DetectedSpine
  | _, _, [] => []
  | i, count, row :: rest =>
    let s := processRow origW origH scaleX scaleY config count (rowLines i) row
    s ++ accumRows origW origH scaleX scaleY config rowLines (i + 1) (count + s.length) rest

/-- The aggregate result of `detectSpines` (`DetectionResult` of
`spineDetector.ts` without buffers and debug counters). -/
structure DetectionResultM where
  spines : List DetectedSpine
  filteredCount : ℕ
  shelfRows : List ShelfRow
deriving DecidableEq

/-- `detectSpines` from `spineDetector.ts:53-184`.  `origW`/`origH` are the
decoded image dimensions; `resizedMat` is the working-resolution grayscale
matrix (its dimensions play the role of `resizedWidth`/`resizedHeight`);
`rowLines i` is the Hough output of `findVerticalLines` on shelf row number
`i`; `channels box` gives the channel means of the crop at box `box`.
Embeds: shelf-row segmentation, per-row merge/sort/scale, region calculation
with the clamped row-crop dimensions, absolute-coordinate adjustment,
provisional indexing, the quality filter, and the final re-indexing. -/
def detectSpines (origW origH : ℕ) (config : DetectionConfig)
    (resizedMat : List (List ℚ)) (rowLines : ℕ → List DetectedLine)
    (channels : BoundingBox → List ℚ) : DetectionResultM :=
  let resizedWidth := matWidth resizedMat
  let resizedHeight := resizedMat.length
  let scaleX : ℚ := (origW : ℚ) / (resizedWidth : ℚ)
  let scaleY : ℚ := (origH : ℚ) / (resizedHeight : ℚ)
  let shelfRows := detectShelfRows resizedMat
  let allSpines := accumRows (origW : ℚ) (origH : ℚ) scaleX scaleY config rowLines 0 0 shelfRows
  let fc := spineQualityFilter allSpines (origW : ℚ) channels
  let originalShelfRows := shelfRows.map (fun r =>
    (⟨(jround (r.y * scaleY) : ℚ), (jround (r.height * scaleY) : ℚ)⟩ : ShelfRow))
  ⟨fc.1, fc.2, originalShelfRows⟩

/-- A raw line segment as returned by `cv.HoughLinesP` (`lines.data32S`):
four 32-bit integer endpoint coordinates. -/
structure HoughSegment where
  x1 : ℤ
  y1 : ℤ
  x2 : ℤ
  y2 : ℤ
deriving DecidableEq

/-- A detected line with the real-valued `angle` produced by the
`Math.atan2`-based computation of `findVerticalLines`. -/
structure DetectedLineR where
  x1 : ℤ
  y1 : ℤ
  x2 : ℤ
  y2 : ℤ
  angle : ℝ
  avgX : ℚ

open scoped Classical in
/-- JavaScript `Math.atan2 y x` on finite inputs (`Math.atan2(0, 0) = 0`). -/
noncomputable def jsAtan2 (y x : ℝ) : ℝ :=
  if 0 < x then Real.arctan (y / x)
  else if x < 0 ∧ 0 ≤ y then Real.arctan (y / x) + Real.pi
  else if x < 0 then Real.arctan (y / x) - Real.pi
  else if 0 < y then Real.pi / 2
  else if y < 0 then -(Real.pi / 2)
  else 0

/-- `Math.abs(Math.atan2(deltaX, deltaY) * (180 / Math.PI))`
(`lineDetection.ts:131-134`): the raw angle of a segment measured from the
vertical axis, in degrees, in `[0, 180]`. -/
noncomputable def rawAngleFromVertical (s : HoughSegment) : ℝ :=
  |jsAtan2 ((s.x2 - s.x1 : ℤ) : ℝ) ((s.y2 - s.y1 : ℤ) : ℝ) * (180 / Real.pi)|

open scoped Classical in
/-- `findVerticalLines` from `lineDetection.ts:108-152`, with the Hough
transform output supplied as `segments`: keep segments whose raw angle from
vertical is within `verticalAngleTolerance` of 0 or 180, storing
`angle = 90 - rawAngle` and `avgX = (x1 + x2) / 2`. -/
noncomputable def findVerticalLines (segments : List HoughSegment)
    (config : DetectionConfig) : List DetectedLineR :=
  segments.filterMap (fun s =>
    let angle := rawAngleFromVertical s
    if angle ≤ (config.verticalAngleTolerance : ℝ) ∨
        (180 : ℝ) - (config.verticalAngleTolerance : ℝ) ≤ angle then
      some ⟨s.x1, s.y1, s.x2, s.y2, 90 - angle, ((s.x1 : ℚ) + (s.x2 : ℚ)) / 2⟩
    else none)

/-- Concrete working-resolution matrix for the boundary scenarios: a uniform
20×20 grayscale image of brightness 100. -/
def uniformMat20 : List (List ℚ) := List.replicate 20 (List.replicate 20 (100 : ℚ))

/-- Concrete Hough oracle: every shelf row yields one near-right-edge vertical
line with endpoints `(18,0)-(19,19)`, hence `avgX = 18.5`. -/
def rowLines20 : ℕ → List DetectedLine := fun _ => [⟨18, 0, 19, 19, 0, 37/2⟩]

/-- Concrete channel-statistics oracle: every crop has a single channel of
mean brightness 100. -/
def channels100 : BoundingBox → List ℚ := fun _ => [100]

theorem jround_intCast (n : ℤ) : jround (n : ℚ) = n := by
  unfold jround
  rw [add_comm, Int.floor_add_int]
  norm_num

theorem jround_cast_le (q : ℚ) : (jround q : ℚ) ≤ q + 1/2 :=
  Int.floor_le _

theorem jround_nonneg {q : ℚ} (h : 0 ≤ q) : 0 ≤ jround q :=
  Int.le_floor.mpr (by push_cast; linarith)

theorem jround_mono {p q : ℚ} (h : p ≤ q) : jround p ≤ jround q :=
  Int.floor_mono (by linarith)

theorem getLast_cons_eq_getLastD (a : DetectedLine) (l : List DetectedLine) :
    (a :: l).getLast (List.cons_ne_nil a l) = l.getLastD a := by
  induction l generalizing a with
  | nil => rfl
  | cons b t ih =>
    rw [List.getLast_cons (List.cons_ne_nil b t), List.getLastD_cons]
    exact ih b

/-- **C9.**  For the empty line list, `calculateSpineRegions` returns exactly
one region whose bounding box is `{x: 0, y: 0, width: imageWidth,
height: imageHeight}` with both `leftEdge` and `rightEdge` null. -/
theorem c9_calculateSpineRegions_no_lines (imageWidth imageHeight : ℚ)
    (config : DetectionConfig) :
    calculateSpineRegions [] imageWidth imageHeight config =
      [⟨⟨0, 0, imageWidth, imageHeight⟩, none, none⟩] := rfl

theorem gapRegionsLoop_eq_filterMap (minWidth maxWidth imageHeight : ℚ)
    (lines : List DetectedLine) :
    gapRegionsLoop minWidth maxWidth imageHeight lines =
      (lines.zip lines.tail).filterMap (fun p =>
        if minWidth ≤ p.2.avgX - p.1.avgX ∧ p.2.avgX - p.1.avgX ≤ maxWidth then
          some ⟨⟨(jround p.1.avgX : ℚ), 0, (jround (p.2.avgX - p.1.avgX) : ℚ), imageHeight⟩,
            some p.1, some p.2⟩
        else none) := by
  induction lines with
  | nil => rfl
  | cons a t ih =>
    cases t with
    | nil => rfl
    | cons b r =>
      rw [gapRegionsLoop, ih]
      simp only [List.tail_cons, List.zip_cons_cons, List.filterMap_cons]
      by_cases h : minWidth ≤ b.avgX - a.avgX ∧ b.avgX - a.avgX ≤ maxWidth
      · rw [if_pos h, if_pos h]
        rfl
      · rw [if_neg h, if_neg h]
        rfl

/-- **C2 (amended).**  In `calculateSpineRegions`, for a non-empty line list,
the leading region (left image edge to the first line) and the trailing
region (last line to the right image edge) are accepted iff their widths are
*strictly* between `minWidth` and `maxWidth`, while each gap between
consecutive lines is accepted iff its width is between the bounds
*non-strictly* (`>= minWidth && <= maxWidth` in the source); the output is
exactly the leading region, then the accepted gaps in order, then the
trailing region. -/
theorem c2_calculateSpineRegions_acceptance (lines : List DetectedLine)
    (imageWidth imageHeight : ℚ) (config : DetectionConfig) (hne : lines ≠ []) :
    calculateSpineRegions lines imageWidth imageHeight config =
      (if spineMinWidth imageWidth config < (lines.head hne).avgX ∧
          (lines.head hne).avgX < spineMaxWidth imageWidth config then
        [⟨⟨0, 0, (jround (lines.head hne).avgX : ℚ), imageHeight⟩, none,
          some (lines.head hne)⟩]
      else [])
      ++ (lines.zip lines.tail).filterMap (fun p =>
        if spineMinWidth imageWidth config ≤ p.2.avgX - p.1.avgX ∧
            p.2.avgX - p.1.avgX ≤ spineMaxWidth imageWidth config then
          some ⟨⟨(jround p.1.avgX : ℚ), 0, (jround (p.2.avgX - p.1.avgX) : ℚ), imageHeight⟩,
            some p.1, some p.2⟩
        else none)
      ++ (if spineMinWidth imageWidth config < imageWidth - (lines.getLast hne).avgX ∧
            imageWidth - (lines.getLast hne).avgX < spineMaxWidth imageWidth config then
        [⟨⟨(jround (lines.getLast hne).avgX : ℚ),
            0, (jround (imageWidth - (lines.getLast hne).avgX) : ℚ), imageHeight⟩,
          some (lines.getLast hne), none⟩]
      else []) := by
  match lines with
  | [] => exact absurd rfl hne
  | first :: rest =>
    show calculateSpineRegions (first :: rest) imageWidth imageHeight config = _
    rw [calculateSpineRegions]
    rw [gapRegionsLoop_eq_filterMap]
    have hlast : (first :: rest).getLast hne = rest.getLastD first := by
      rw [← getLast_cons_eq_getLastD first rest]
    rw [List.head_cons, hlast]

/-- Witness for C2 (amended) at a concrete input: two lines at
`avgX = 200, 208` on a 1000-pixel-wide image with the default config. -/
theorem c2_calculateSpineRegions_acceptance_witness :
    calculateSpineRegions [⟨200, 0, 200, 99, 0, 200⟩, ⟨208, 0, 208, 99, 0, 208⟩]
        1000 100 DEFAULT_CONFIG =
      (if spineMinWidth 1000 DEFAULT_CONFIG <
          (([⟨200, 0, 200, 99, 0, 200⟩, ⟨208, 0, 208, 99, 0, 208⟩] :
            List DetectedLine).head (by decide)).avgX ∧
          (([⟨200, 0, 200, 99, 0, 200⟩, ⟨208, 0, 208, 99, 0, 208⟩] :
            List DetectedLine).head (by decide)).avgX < spineMaxWidth 1000 DEFAULT_CONFIG then
        [⟨⟨0, 0, (jround (([⟨200, 0, 200, 99, 0, 200⟩, ⟨208, 0, 208, 99, 0, 208⟩] :
            List DetectedLine).head (by decide)).avgX : ℚ), 100⟩, none,
          some (([⟨200, 0, 200, 99, 0, 200⟩, ⟨208, 0, 208, 99, 0, 208⟩] :
            List DetectedLine).head (by decide))⟩]
      else [])
      ++ (([⟨200, 0, 200, 99, 0, 200⟩, ⟨208, 0, 208, 99, 0, 208⟩] :
          List DetectedLine).zip ([⟨200, 0, 200, 99, 0, 200⟩,
            ⟨208, 0, 208, 99, 0, 208⟩] : List DetectedLine).tail).filterMap (fun p =>
        if spineMinWidth 1000 DEFAULT_CONFIG ≤ p.2.avgX - p.1.avgX ∧
            p.2.avgX - p.1.avgX ≤ spineMaxWidth 1000 DEFAULT_CONFIG then
          some ⟨⟨(jround p.1.avgX : ℚ), 0, (jround (p.2.avgX - p.1.avgX) : ℚ), 100⟩,
            some p.1, some p.2⟩
        else none)
      ++ (if spineMinWidth 1000 DEFAULT_CONFIG <
            1000 - (([⟨200, 0, 200, 99, 0, 200⟩, ⟨208, 0, 208, 99, 0, 208⟩] :
              List DetectedLine).getLast (by decide)).avgX ∧
            1000 - (([⟨200, 0, 200, 99, 0, 200⟩, ⟨208, 0, 208, 99, 0, 208⟩] :
              List DetectedLine).getLast (by decide)).avgX <
              spineMaxWidth 1000 DEFAULT_CONFIG then
        [⟨⟨(jround (([⟨200, 0, 200, 99, 0, 200⟩, ⟨208, 0, 208, 99, 0, 208⟩] :
              List DetectedLine).getLast (by decide)).avgX : ℚ),
            0, (jround (1000 - (([⟨200, 0, 200, 99, 0, 200⟩, ⟨208, 0, 208, 99, 0, 208⟩] :
              List DetectedLine).getLast (by decide)).avgX) : ℚ), 100⟩,
          some (([⟨200, 0, 200, 99, 0, 200⟩, ⟨208, 0, 208, 99, 0, 208⟩] :
            List DetectedLine).getLast (by decide)), none⟩]
      else []) :=
  c2_calculateSpineRegions_acceptance
    [⟨200, 0, 200, 99, 0, 200⟩, ⟨208, 0, 208, 99, 0, 208⟩] 1000 100 DEFAULT_CONFIG
    (by decide)

/-- **C2 (counterexample).**  With the default config on a 1000-pixel-wide
image, `minWidth = 8`; the gap between lines at `avgX = 200` and `avgX = 208`
has width exactly `8 = minWidth` — *not* strictly greater — yet it is
accepted (it is the only region returned), because the source tests gaps with
`>=`/`<=` rather than the strict bounds the claim states. -/
theorem c2_counterexample :
    calculateSpineRegions [⟨200, 0, 200, 99, 0, 200⟩, ⟨208, 0, 208, 99, 0, 208⟩]
        1000 100 DEFAULT_CONFIG =
      [⟨⟨200, 0, 8, 100⟩, some ⟨200, 0, 200, 99, 0, 200⟩, some ⟨208, 0, 208, 99, 0, 208⟩⟩] ∧
    ¬ spineMinWidth 1000 DEFAULT_CONFIG <
        (⟨208, 0, 208, 99, 0, 208⟩ : DetectedLine).avgX -
          (⟨200, 0, 200, 99, 0, 200⟩ : DetectedLine).avgX := by
  constructor
  · rw [calculateSpineRegions]
    norm_num [spineMinWidth, spineMaxWidth, gapRegionsLoop, jround, DEFAULT_CONFIG,
      List.getLastD]
  · norm_num [spineMinWidth, DEFAULT_CONFIG]

theorem groupLinesAux_flatten (th : ℚ) (xs : List DetectedLine) :
    ∀ (lastInGroup : DetectedLine) (revRest : List DetectedLine),
      (groupLinesAux th xs lastInGroup revRest).flatten =
        revRest.reverse ++ lastInGroup :: xs := by
  induction xs with
  | nil => intro lastInGroup revRest; simp [groupLinesAux]
  | cons x rest ih =>
    intro lastInGroup revRest
    rw [groupLinesAux]
    by_cases h : |x.avgX - lastInGroup.avgX| ≤ th
    · rw [if_pos h, ih]
      simp
    · rw [if_neg h]
      simp [ih]

theorem groupLines_flatten (th : ℚ) (l : List DetectedLine) :
    (groupLines th l).flatten = l := by
  cases l with
  | nil => rfl
  | cons a t => simp [groupLines, groupLinesAux_flatten]

theorem groupLinesAux_ne_nil (th : ℚ) (xs : List DetectedLine) :
    ∀ (lastInGroup : DetectedLine) (revRest : List DetectedLine),
      ∀ g ∈ groupLinesAux th xs lastInGroup revRest, g ≠ [] := by
  induction xs with
  | nil =>
    intro lastInGroup revRest g hg
    simp only [groupLinesAux, List.mem_singleton] at hg
    subst hg
    simp
  | cons x rest ih =>
    intro lastInGroup revRest g hg
    rw [groupLinesAux] at hg
    by_cases h : |x.avgX - lastInGroup.avgX| ≤ th
    · rw [if_pos h] at hg
      exact ih x (lastInGroup :: revRest) g hg
    · rw [if_neg h] at hg
      rcases List.mem_cons.mp hg with h1 | h2
      · subst h1; simp
      · exact ih x [] g h2

theorem groupLines_ne_nil (th : ℚ) (l : List DetectedLine) :
    ∀ g ∈ groupLines th l, g ≠ [] := by
  cases l with
  | nil => intro g hg; simp [groupLines] at hg
  | cons a t => exact groupLinesAux_ne_nil th t a []

theorem groupLinesAux_chain' (th : ℚ) (xs : List DetectedLine) :
    ∀ (lastInGroup : DetectedLine) (revRest : List DetectedLine),
      List.Chain' (fun a b => |b.avgX - a.avgX| ≤ th) (revRest.reverse ++ [lastInGroup]) →
      ∀ g ∈ groupLinesAux th xs lastInGroup revRest,
        List.Chain' (fun a b => |b.avgX - a.avgX| ≤ th) g := by
  induction xs with
  | nil =>
    intro lastInGroup revRest hch g hg
    simp only [groupLinesAux, List.mem_singleton] at hg
    subst hg
    simpa using hch
  | cons x rest ih =>
    intro lastInGroup revRest hch g hg
    rw [groupLinesAux] at hg
    by_cases h : |x.avgX - lastInGroup.avgX| ≤ th
    · rw [if_pos h] at hg
      refine ih x (lastInGroup :: revRest) ?_ g hg
      rw [List.reverse_cons]
      rw [List.chain'_append]
      refine ⟨by simpa using hch, by simp, ?_⟩
      intro p hp q hq
      rw [List.getLast?_concat] at hp
      simp only [Option.mem_def, Option.some.injEq] at hp
      simp only [List.head?_cons, Option.mem_def, Option.some.injEq] at hq
      subst hp; subst hq
      exact h
    · rw [if_neg h] at hg
      rcases List.mem_cons.mp hg with h1 | h2
      · subst h1; simpa using hch
      · exact ih x [] (by simp) g h2

/-- **C3 (amended).**  Within each merged cluster produced by
`mergeNearbyLines`, *consecutive* member lines (in the sorted order in which
the grouping loop added them) have `avgX` values differing by at most the
merge threshold; an arbitrary pair of members may differ by up to
`(size − 1) ×` threshold, because membership is decided against the last
line added, not against all members. -/
theorem c3_groupLines_consecutive_close (lines : List DetectedLine) (mergeThreshold : ℚ) :
    ∀ g ∈ groupLines mergeThreshold (sortLines lines),
      List.Chain' (fun a b => |b.avgX - a.avgX| ≤ mergeThreshold) g := by
  cases h : sortLines lines with
  | nil => intro g hg; simp [groupLines] at hg
  | cons a t =>
    intro g hg
    exact groupLinesAux_chain' mergeThreshold t a [] (by simp) g hg

/-- Witness for C3 (amended): the cluster formed from lines at
`avgX = 0, 8, 16` with threshold 8 satisfies the consecutive-difference
bound. -/
theorem c3_groupLines_consecutive_close_witness :
    List.Chain' (fun a b => |b.avgX - a.avgX| ≤ (8 : ℚ))
      [(⟨0, 0, 0, 10, 0, 0⟩ : DetectedLine), ⟨8, 0, 8, 10, 0, 8⟩, ⟨16, 0, 16, 10, 0, 16⟩] :=
  c3_groupLines_consecutive_close
    [⟨0, 0, 0, 10, 0, 0⟩, ⟨8, 0, 8, 10, 0, 8⟩, ⟨16, 0, 16, 10, 0, 16⟩] 8
    [⟨0, 0, 0, 10, 0, 0⟩, ⟨8, 0, 8, 10, 0, 8⟩, ⟨16, 0, 16, 10, 0, 16⟩]
    (by norm_num [groupLines, groupLinesAux, sortLines, List.insertionSort,
      List.orderedInsert, lineLe])

/-- **C3 (counterexample).**  With the default threshold 8, the lines at
`avgX = 0, 8, 16` form a *single* merged cluster (each is within 8 of the
line added before it), yet the pair of members at `avgX = 0` and `avgX = 16`
differs by 16 > 8 — refuting the claim that *every* pair of member lines
differs by at most the merge threshold. -/
theorem c3_counterexample :
    [(⟨0, 0, 0, 10, 0, 0⟩ : DetectedLine), ⟨8, 0, 8, 10, 0, 8⟩, ⟨16, 0, 16, 10, 0, 16⟩] ∈
      groupLines 8 (sortLines [⟨0, 0, 0, 10, 0, 0⟩, ⟨8, 0, 8, 10, 0, 8⟩, ⟨16, 0, 16, 10, 0, 16⟩]) ∧
    ¬ (|(⟨16, 0, 16, 10, 0, 16⟩ : DetectedLine).avgX -
          (⟨0, 0, 0, 10, 0, 0⟩ : DetectedLine).avgX| ≤ (8 : ℚ)) := by
  constructor
  · have h : groupLines 8 (sortLines [(⟨0, 0, 0, 10, 0, 0⟩ : DetectedLine),
        ⟨8, 0, 8, 10, 0, 8⟩, ⟨16, 0, 16, 10, 0, 16⟩]) =
        [[⟨0, 0, 0, 10, 0, 0⟩, ⟨8, 0, 8, 10, 0, 8⟩, ⟨16, 0, 16, 10, 0, 16⟩]] := by
      norm_num [groupLines, groupLinesAux, sortLines, List.insertionSort,
        List.orderedInsert, lineLe]
    rw [h]
    simp
  · norm_num

theorem length_le_flatten_length (L : List (List DetectedLine))
    (h : ∀ g ∈ L, g ≠ []) : L.length ≤ L.flatten.length := by
  induction L with
  | nil => simp
  | cons g gs ih =>
    have hg : g ≠ [] := h g (by simp)
    have hlen : 1 ≤ g.length := List.length_pos.mpr hg
    have := ih (fun x hx => h x (by simp [hx]))
    simp only [List.length_cons, List.flatten_cons, List.length_append]
    omega

/-- **C8.**  For every input list of `DetectedLine` and every merge
threshold, the list returned by `mergeNearbyLines` is no longer than the
input list. -/
theorem c8_mergeNearbyLines_length_le (lines : List DetectedLine) (mergeThreshold : ℚ) :
    (mergeNearbyLines lines mergeThreshold).length ≤ lines.length := by
  unfold mergeNearbyLines
  rw [List.length_map]
  calc (groupLines mergeThreshold (sortLines lines)).length
      ≤ (groupLines mergeThreshold (sortLines lines)).flatten.length :=
        length_le_flatten_length _ (groupLines_ne_nil mergeThreshold (sortLines lines))
    _ = (sortLines lines).length := by rw [groupLines_flatten]
    _ = lines.length := (List.perm_insertionSort lineLe lines).length_eq

theorem sum_div_length_le {l : List ℚ} {B : ℚ} (hne : l ≠ []) (h : ∀ x ∈ l, x ≤ B) :
    l.sum / (l.length : ℚ) ≤ B := by
  have hlen : 0 < (l.length : ℚ) := by exact_mod_cast List.length_pos.mpr hne
  rw [div_le_iff₀ hlen]
  have h2 := List.sum_le_card_nsmul l B h
  simpa [nsmul_eq_mul, mul_comm] using h2

theorem le_sum_div_length {l : List ℚ} {c : ℚ} (hne : l ≠ []) (h : ∀ x ∈ l, c ≤ x) :
    c ≤ l.sum / (l.length : ℚ) := by
  have hlen : 0 < (l.length : ℚ) := by exact_mod_cast List.length_pos.mpr hne
  rw [le_div_iff₀ hlen]
  have h2 := List.card_nsmul_le_sum l c h
  simpa [nsmul_eq_mul, mul_comm] using h2

theorem sum_map_halves (g : List DetectedLine) :
    (g.map (fun a => (a.x1 + a.x2) / 2)).sum =
      ((g.map (fun a => a.x1)).sum + (g.map (fun a => a.x2)).sum) / 2 := by
  induction g with
  | nil => simp
  | cons a t ih =>
    simp only [List.map_cons, List.sum_cons, ih]
    ring

theorem mergeGroup_avgX_mean (g : List DetectedLine) (hne : g ≠ [])
    (hcons : ∀ l ∈ g, l.avgX = (l.x1 + l.x2) / 2) :
    (mergeGroup g).avgX = (g.map (fun l => l.avgX)).sum / (g.length : ℚ) := by
  match g with
  | [] => exact absurd rfl hne
  | [l] =>
    simp [mergeGroup]
  | l :: l2 :: ls =>
    have hmap : (l :: l2 :: ls).map (fun a => a.avgX) =
        (l :: l2 :: ls).map (fun a => (a.x1 + a.x2) / 2) :=
      List.map_congr_left (fun a ha => hcons a ha)
    rw [hmap, sum_map_halves]
    show ((((l :: l2 :: ls).map (fun a => a.x1)).sum / ((l :: l2 :: ls).length : ℚ)) +
        (((l :: l2 :: ls).map (fun a => a.x2)).sum / ((l :: l2 :: ls).length : ℚ))) / 2 = _
    rw [div_add_div_same, div_div, div_div, mul_comm]

theorem mergeGroup_avgX_le (g : List DetectedLine) (hne : g ≠ [])
    (hcons : ∀ l ∈ g, l.avgX = (l.x1 + l.x2) / 2) {B : ℚ}
    (hB : ∀ l ∈ g, l.avgX ≤ B) : (mergeGroup g).avgX ≤ B := by
  rw [mergeGroup_avgX_mean g hne hcons]
  have hmapne : g.map (fun l => l.avgX) ≠ [] := by
    simp only [ne_eq, List.map_eq_nil_iff]
    exact hne
  rw [show (g.length : ℚ) = ((g.map (fun l => l.avgX)).length : ℚ) by rw [List.length_map]]
  refine sum_div_length_le hmapne ?_
  intro x hx
  obtain ⟨a, ha, rfl⟩ := List.mem_map.mp hx
  exact hB a ha

theorem le_mergeGroup_avgX (g : List DetectedLine) (hne : g ≠ [])
    (hcons : ∀ l ∈ g, l.avgX = (l.x1 + l.x2) / 2) {c : ℚ}
    (hc : ∀ l ∈ g, c ≤ l.avgX) : c ≤ (mergeGroup g).avgX := by
  rw [mergeGroup_avgX_mean g hne hcons]
  have hmapne : g.map (fun l => l.avgX) ≠ [] := by
    simp only [ne_eq, List.map_eq_nil_iff]
    exact hne
  rw [show (g.length : ℚ) = ((g.map (fun l => l.avgX)).length : ℚ) by rw [List.length_map]]
  refine le_sum_div_length hmapne ?_
  intro x hx
  obtain ⟨a, ha, rfl⟩ := List.mem_map.mp hx
  exact hc a ha

/-- **C10 (amended).**  When every input line satisfies the invariant
`avgX = (x1 + x2) / 2` established by `findVerticalLines`, the list returned
by `mergeNearbyLines` is already sorted in non-decreasing `avgX` order, each
merged representative's `avgX` equals the mean of its group members' `avgX`
values, and the groups are consecutive intervals of the ascending-sorted
input (their concatenation *is* the sorted input).  For arbitrary `avgX`
fields (not tied to the endpoints) the order guarantee fails, as the
counterexample shows. -/
theorem c10_mergeNearbyLines_sorted (lines : List DetectedLine) (mergeThreshold : ℚ)
    (hcons : ∀ l ∈ lines, l.avgX = (l.x1 + l.x2) / 2) :
    List.Pairwise lineLe (mergeNearbyLines lines mergeThreshold) ∧
    (∀ g ∈ groupLines mergeThreshold (sortLines lines),
      (mergeGroup g).avgX = (g.map (fun l => l.avgX)).sum / (g.length : ℚ)) ∧
    (groupLines mergeThreshold (sortLines lines)).flatten = sortLines lines := by
  have hflat := groupLines_flatten mergeThreshold (sortLines lines)
  have hmem : ∀ g ∈ groupLines mergeThreshold (sortLines lines),
      ∀ l ∈ g, l.avgX = (l.x1 + l.x2) / 2 := by
    intro g hg l hl
    apply hcons
    have hjoin : l ∈ (groupLines mergeThreshold (sortLines lines)).flatten :=
      List.mem_flatten.mpr ⟨g, hg, hl⟩
    rw [hflat] at hjoin
    exact (List.mem_insertionSort lineLe).mp hjoin
  refine ⟨?_, fun g hg => mergeGroup_avgX_mean g
    (groupLines_ne_nil mergeThreshold (sortLines lines) g hg) (hmem g hg), hflat⟩
  have hsorted : List.Pairwise lineLe (sortLines lines) :=
    List.sorted_insertionSort lineLe lines
  have hpair : List.Pairwise (fun g1 g2 => ∀ x ∈ g1, ∀ y ∈ g2, lineLe x y)
      (groupLines mergeThreshold (sortLines lines)) :=
    (List.pairwise_flatten.mp (by rw [hflat]; exact hsorted)).2
  unfold mergeNearbyLines
  rw [List.pairwise_map]
  refine hpair.imp_of_mem ?_
  intro g1 g2 h1 h2 hcross
  show (mergeGroup g1).avgX ≤ (mergeGroup g2).avgX
  refine le_mergeGroup_avgX g2 (groupLines_ne_nil mergeThreshold (sortLines lines) g2 h2)
    (hmem g2 h2) ?_
  intro b hb
  refine mergeGroup_avgX_le g1 (groupLines_ne_nil mergeThreshold (sortLines lines) g1 h1)
    (hmem g1 h1) ?_
  intro a ha
  exact hcross a ha b hb

/-- Witness for C10 (amended) at a concrete consistent input: three exactly
vertical lines at `x = 0, 8, 16` (each with `avgX = (x1 + x2) / 2`),
threshold 8. -/
theorem c10_mergeNearbyLines_sorted_witness :
    List.Pairwise lineLe (mergeNearbyLines
      [⟨0, 0, 0, 10, 0, 0⟩, ⟨8, 0, 8, 10, 0, 8⟩, ⟨16, 0, 16, 10, 0, 16⟩] 8) ∧
    (∀ g ∈ groupLines 8 (sortLines
        [⟨0, 0, 0, 10, 0, 0⟩, ⟨8, 0, 8, 10, 0, 8⟩, ⟨16, 0, 16, 10, 0, 16⟩]),
      (mergeGroup g).avgX = (g.map (fun l => l.avgX)).sum / (g.length : ℚ)) ∧
    (groupLines 8 (sortLines
        [⟨0, 0, 0, 10, 0, 0⟩, ⟨8, 0, 8, 10, 0, 8⟩, ⟨16, 0, 16, 10, 0, 16⟩])).flatten =
      sortLines [⟨0, 0, 0, 10, 0, 0⟩, ⟨8, 0, 8, 10, 0, 8⟩, ⟨16, 0, 16, 10, 0, 16⟩] :=
  c10_mergeNearbyLines_sorted
    [⟨0, 0, 0, 10, 0, 0⟩, ⟨8, 0, 8, 10, 0, 8⟩, ⟨16, 0, 16, 10, 0, 16⟩] 8
    (by intro l hl; fin_cases hl <;> norm_num)

/-- **C10 (counterexample).**  For an input list whose `avgX` fields are not
the endpoint means (possible since `mergeNearbyLines` accepts any
`DetectedLine[]`), the output is *not* sorted by `avgX`: two lines with
`avgX = 0, 1` but endpoints at `x = 300` merge to a representative with
recomputed `avgX = 300`, which precedes the untouched line with
`avgX = 20`. -/
theorem c10_counterexample :
    mergeNearbyLines
        [⟨300, 0, 300, 10, 0, 0⟩, ⟨300, 0, 300, 10, 0, 1⟩, ⟨20, 0, 20, 10, 0, 20⟩] 8 =
      [⟨300, 0, 300, 10, 0, 300⟩, ⟨20, 0, 20, 10, 0, 20⟩] ∧
    ¬ List.Pairwise lineLe (mergeNearbyLines
        [⟨300, 0, 300, 10, 0, 0⟩, ⟨300, 0, 300, 10, 0, 1⟩, ⟨20, 0, 20, 10, 0, 20⟩] 8) := by
  have h : mergeNearbyLines
      [(⟨300, 0, 300, 10, 0, 0⟩ : DetectedLine), ⟨300, 0, 300, 10, 0, 1⟩,
        ⟨20, 0, 20, 10, 0, 20⟩] 8 =
      [⟨300, 0, 300, 10, 0, 300⟩, ⟨20, 0, 20, 10, 0, 20⟩] := by
    norm_num [mergeNearbyLines, groupLines, groupLinesAux, sortLines, List.insertionSort,
      List.orderedInsert, lineLe, mergeGroup, jround]
  refine ⟨h, ?_⟩
  rw [h]
  simp only [List.pairwise_cons, List.mem_singleton, lineLe]
  intro hcon
  have := hcon.1 _ rfl
  norm_num at this

theorem bandsAux_mem_facts (minBand : ℚ) (hmb : 0 ≤ minBand) (flags : List Bool) :
    ∀ (y : ℕ) (os : Option ℕ), (∀ s ∈ os, s ≤ y) →
      ∀ b ∈ bandsAux minBand flags y os,
        os.getD y ≤ b.bStart ∧ b.bStart < b.bEnd ∧ b.bEnd ≤ y + flags.length := by
  induction flags with
  | nil =>
    intro y os hs b hb
    match os with
    | none => simp [bandsAux] at hb
    | some s =>
      rw [bandsAux] at hb
      by_cases hcond : (y : ℚ) - (s : ℚ) > minBand
      · rw [if_pos hcond] at hb
        simp only [List.mem_singleton] at hb
        subst hb
        have hsy : s < y := by
          have : (s : ℚ) < (y : ℚ) := by linarith
          exact_mod_cast this
        exact ⟨le_refl _, hsy, by simp⟩
      · rw [if_neg hcond] at hb
        simp at hb
  | cons f fs ih =>
    intro y os hs b hb
    match os with
    | none =>
      rw [bandsAux] at hb
      by_cases hf : f = true
      · rw [if_pos hf] at hb
        have := ih (y + 1) (some y) (by intro s hsm; simp at hsm; omega) b hb
        simp only [Option.getD_some] at this
        refine ⟨?_, this.2.1, by have := this.2.2; simp only [List.length_cons]; omega⟩
        simpa using this.1
      · rw [if_neg hf] at hb
        have := ih (y + 1) none (by intro s hsm; simp at hsm) b hb
        simp only [Option.getD_none] at this ⊢
        exact ⟨by omega, this.2.1, by have := this.2.2; simp only [List.length_cons]; omega⟩
    | some s =>
      rw [bandsAux] at hb
      have hsy : s ≤ y := hs s rfl
      by_cases hf : f = true
      · rw [if_pos hf] at hb
        have := ih (y + 1) (some s) (by intro s' hsm; simp at hsm; omega) b hb
        simp only [Option.getD_some] at this ⊢
        exact ⟨this.1, this.2.1, by have := this.2.2; simp only [List.length_cons]; omega⟩
      · rw [if_neg hf] at hb
        rw [List.mem_append] at hb
        simp only [Option.getD_some]
        rcases hb with hb1 | hb2
        · by_cases hcond : (y : ℚ) - (s : ℚ) > minBand
          · rw [if_pos hcond] at hb1
            simp only [List.mem_singleton] at hb1
            subst hb1
            have hlt : s < y := by
              have : (s : ℚ) < (y : ℚ) := by linarith
              exact_mod_cast this
            exact ⟨le_refl _, hlt, by simp only [List.length_cons]; omega⟩
          · rw [if_neg hcond] at hb1
            simp at hb1
        · have := ih (y + 1) none (by intro s' hsm; simp at hsm) b hb2
          simp only [Option.getD_none] at this
          exact ⟨by omega, this.2.1, by have := this.2.2; simp only [List.length_cons]; omega⟩

theorem bandsAux_pairwise (minBand : ℚ) (hmb : 0 ≤ minBand) (flags : List Bool) :
    ∀ (y : ℕ) (os : Option ℕ), (∀ s ∈ os, s ≤ y) →
      List.Pairwise (fun b1 b2 => b1.bEnd ≤ b2.bStart) (bandsAux minBand flags y os) := by
  induction flags with
  | nil =>
    intro y os hs
    match os with
    | none => simp [bandsAux]
    | some s =>
      rw [bandsAux]
      by_cases hcond : (y : ℚ) - (s : ℚ) > minBand
      · rw [if_pos hcond]; simp
      · rw [if_neg hcond]; simp
  | cons f fs ih =>
    intro y os hs
    match os with
    | none =>
      rw [bandsAux]
      by_cases hf : f = true
      · rw [if_pos hf]
        exact ih (y + 1) (some y) (by intro s hsm; simp at hsm; omega)
      · rw [if_neg hf]
        exact ih (y + 1) none (by intro s hsm; simp at hsm)
    | some s =>
      rw [bandsAux]
      have hsy : s ≤ y := hs s rfl
      by_cases hf : f = true
      · rw [if_pos hf]
        exact ih (y + 1) (some s) (by intro s' hsm; simp at hsm; omega)
      · rw [if_neg hf]
        have htail := ih (y + 1) none (by intro s' hsm; simp at hsm)
        by_cases hcond : (y : ℚ) - (s : ℚ) > minBand
        · rw [if_pos hcond]
          simp only [List.singleton_append, List.pairwise_cons]
          refine ⟨?_, htail⟩
          intro b hb
          have := bandsAux_mem_facts minBand hmb fs (y + 1) none
            (by intro s' hsm; simp at hsm) b hb
          simp only [Option.getD_none] at this
          omega
        · rw [if_neg hcond]
          simpa using htail

theorem darkFlags_length (mat : List (List ℚ)) : (darkFlags mat).length = mat.length := by
  simp [darkFlags, smoothedList]

theorem separators_pairwise (mat : List (List ℚ)) :
    List.Pairwise (fun b1 b2 => b1.bEnd ≤ b2.bStart) (separatorsOf mat) :=
  (bandsAux_pairwise ((mat.length : ℚ) * (1/100)) (by positivity) (darkFlags mat) 0 none
    (by intro s hsm; simp at hsm)).sublist (List.filter_sublist _)

theorem separators_mem_facts (mat : List (List ℚ)) :
    ∀ b ∈ separatorsOf mat, b.bStart < b.bEnd ∧ b.bEnd ≤ mat.length := by
  intro b hb
  have hb' : b ∈ darkBands mat := List.mem_of_mem_filter hb
  have := bandsAux_mem_facts ((mat.length : ℚ) * (1/100)) (by positivity) (darkFlags mat) 0 none
    (by intro s hsm; simp at hsm) b hb'
  rw [darkFlags_length] at this
  exact ⟨this.2.1, by omega⟩

theorem middleRows_facts (h : ℕ) : ∀ (bs : List Band),
    List.Pairwise (fun b1 b2 => b1.bEnd ≤ b2.bStart) bs →
    (∀ b ∈ bs, b.bStart < b.bEnd) →
    (List.Pairwise (fun r1 r2 : ShelfRow => r1.y + r1.height ≤ r2.y) (middleRows h bs) ∧
     ∀ r ∈ middleRows h bs, ∃ b1, b1 ∈ bs ∧ ∃ b2, b2 ∈ bs ∧
       r.y = (b1.bEnd : ℚ) ∧ r.y + r.height = (b2.bStart : ℚ) ∧ b1.bEnd < b2.bStart)
  | [] => by intro _ _; constructor <;> simp [middleRows]
  | [b] => by intro _ _; constructor <;> simp [middleRows]
  | b1 :: b2 :: rest => by
    intro hpw hse
    have hd : ∀ b ∈ b2 :: rest, b1.bEnd ≤ b.bStart := (List.pairwise_cons.mp hpw).1
    have tl : List.Pairwise (fun x y => x.bEnd ≤ y.bStart) (b2 :: rest) :=
      (List.pairwise_cons.mp hpw).2
    have ih := middleRows_facts h (b2 :: rest) tl (fun b hb => hse b (by simp [hb]))
    have hq : (0 : ℚ) ≤ (h : ℚ) * (1/10) := by positivity
    have hmem2 : ∀ r ∈ middleRows h (b1 :: b2 :: rest), ∃ c1, c1 ∈ b1 :: b2 :: rest ∧
        ∃ c2, c2 ∈ b1 :: b2 :: rest ∧ r.y = (c1.bEnd : ℚ) ∧
          r.y + r.height = (c2.bStart : ℚ) ∧ c1.bEnd < c2.bStart := by
      intro r hr
      rw [middleRows, List.mem_append] at hr
      rcases hr with hr1 | hr2
      · by_cases hcond : (h : ℚ) * (1/10) < (b2.bStart : ℚ) - (b1.bEnd : ℚ)
        · rw [if_pos hcond] at hr1
          simp only [List.mem_singleton] at hr1
          subst hr1
          refine ⟨b1, by simp, b2, by simp, rfl, by push_cast; ring, ?_⟩
          have : (b1.bEnd : ℚ) < (b2.bStart : ℚ) := by linarith
          exact_mod_cast this
        · rw [if_neg hcond] at hr1
          simp at hr1
      · obtain ⟨c1, hc1, c2, hc2, hy, hyh, hlt⟩ := ih.2 r hr2
        exact ⟨c1, by simp [List.mem_cons.mp hc1, List.mem_cons], c2,
          by simp [List.mem_cons.mp hc2, List.mem_cons], hy, hyh, hlt⟩
    refine ⟨?_, hmem2⟩
    rw [middleRows, List.pairwise_append]
    refine ⟨?_, ih.1, ?_⟩
    · by_cases hcond : (h : ℚ) * (1/10) < (b2.bStart : ℚ) - (b1.bEnd : ℚ)
      · rw [if_pos hcond]; simp
      · rw [if_neg hcond]; simp
    · intro r hr r' hr'
      by_cases hcond : (h : ℚ) * (1/10) < (b2.bStart : ℚ) - (b1.bEnd : ℚ)
      · rw [if_pos hcond] at hr
        simp only [List.mem_singleton] at hr
        subst hr
        obtain ⟨c1, hc1, c2, hc2, hy, hyh, hlt⟩ := ih.2 r' hr'
        show (b1.bEnd : ℚ) + ((b2.bStart : ℚ) - (b1.bEnd : ℚ)) ≤ r'.y
        rw [hy]
        have hle : b2.bStart ≤ c1.bEnd := by
          rcases List.mem_cons.mp hc1 with hcc | hcc
          · subst hcc
            exact le_of_lt (hse c1 (by simp))
          · have h1 := (List.pairwise_cons.mp tl).1 c1 hcc
            have h2 := hse c1 (by simp [hcc])
            have h3 := hse b2 (by simp)
            omega
        have : (b2.bStart : ℚ) ≤ (c1.bEnd : ℚ) := by exact_mod_cast hle
        linarith
      · rw [if_neg hcond] at hr
        simp at hr

theorem mem_band_le_getLastD (bs : List Band) (d : Band)
    (hpw : List.Pairwise (fun b1 b2 => b1.bEnd ≤ b2.bStart) (d :: bs))
    (hse : ∀ b ∈ d :: bs, b.bStart < b.bEnd) :
    ∀ b ∈ d :: bs, b.bStart < (bs.getLastD d).bEnd := by
  induction bs generalizing d with
  | nil =>
    intro b hb
    simp only [List.mem_singleton] at hb
    subst hb
    exact hse b (by simp)
  | cons b1 rest ih =>
    intro b hb
    have hpw' : List.Pairwise (fun x y => x.bEnd ≤ y.bStart) (b1 :: rest) :=
      (List.pairwise_cons.mp hpw).2
    have hse' : ∀ x ∈ b1 :: rest, x.bStart < x.bEnd := fun x hx => hse x (by simp [hx])
    have hlast : ((b1 :: rest).getLastD d) = rest.getLastD b1 := by
      rw [List.getLastD_cons]
    rw [hlast]
    rcases List.mem_cons.mp hb with hbd | hbtail
    · subst hbd
      have h1 : b.bEnd ≤ b1.bStart := (List.pairwise_cons.mp hpw).1 b1 (by simp)
      have h2 := ih b1 hpw' hse' b1 (by simp)
      have h3 := hse b (by simp)
      omega
    · exact ih b1 hpw' hse' b hbtail

theorem candidateRows_facts (h : ℕ) (seps : List Band)
    (hpw : List.Pairwise (fun b1 b2 => b1.bEnd ≤ b2.bStart) seps)
    (hse : ∀ b ∈ seps, b.bStart < b.bEnd)
    (hub : ∀ b ∈ seps, b.bEnd ≤ h) :
    List.Pairwise (fun r1 r2 : ShelfRow => r1.y + r1.height ≤ r2.y) (candidateRows h seps) ∧
    ∀ r ∈ candidateRows h seps, ∃ a b : ℕ,
      r.y = (a : ℚ) ∧ r.y + r.height = (b : ℚ) ∧ a < b ∧ b ≤ h := by
  match seps with
  | [] => constructor <;> simp [candidateRows]
  | s0 :: rest =>
    have hq : (0 : ℚ) ≤ (h : ℚ) * (1/10) := by positivity
    have hmf := middleRows_facts h (s0 :: rest) hpw hse
    have hlastmem : rest.getLastD s0 ∈ s0 :: rest := List.getLastD_mem_cons rest s0
    have hlastub : (rest.getLastD s0).bEnd ≤ h := hub _ hlastmem
    -- facts about each of the three parts
    have hmidfacts : ∀ r ∈ middleRows h (s0 :: rest), ∃ a b : ℕ,
        r.y = (a : ℚ) ∧ r.y + r.height = (b : ℚ) ∧ a < b ∧ b ≤ h := by
      intro r hr
      obtain ⟨c1, hc1, c2, hc2, hy, hyh, hlt⟩ := hmf.2 r hr
      refine ⟨c1.bEnd, c2.bStart, hy, hyh, hlt, ?_⟩
      have := hse c2 hc2
      have := hub c2 hc2
      omega
    constructor
    · rw [candidateRows, List.append_assoc, List.pairwise_append]
      refine ⟨?_, ?_, ?_⟩
      · by_cases hcond : (h : ℚ) * (1/10) < (s0.bStart : ℚ)
        · rw [if_pos hcond]; simp
        · rw [if_neg hcond]; simp
      · rw [List.pairwise_append]
        refine ⟨hmf.1, ?_, ?_⟩
        · by_cases hcond : (h : ℚ) * (1/10) < (h : ℚ) - ((rest.getLastD s0).bEnd : ℚ)
          · rw [if_pos hcond]; simp
          · rw [if_neg hcond]; simp
        · -- middle rows ≤ last row
          intro r hr r' hr'
          by_cases hcond : (h : ℚ) * (1/10) < (h : ℚ) - ((rest.getLastD s0).bEnd : ℚ)
          · rw [if_pos hcond] at hr'
            simp only [List.mem_singleton] at hr'
            subst hr'
            obtain ⟨c1, hc1, c2, hc2, hy, hyh, hlt⟩ := hmf.2 r hr
            rw [hyh]
            show (c2.bStart : ℚ) ≤ ((rest.getLastD s0).bEnd : ℚ)
            have := mem_band_le_getLastD rest s0 hpw hse c2 hc2
            exact_mod_cast le_of_lt this
          · rw [if_neg hcond] at hr'
            simp at hr'
      · -- first row ≤ middle and last rows
        intro r hr r' hr'
        by_cases hcond : (h : ℚ) * (1/10) < (s0.bStart : ℚ)
        · rw [if_pos hcond] at hr
          simp only [List.mem_singleton] at hr
          subst hr
          show (0 : ℚ) + (s0.bStart : ℚ) ≤ r'.y
          rw [List.mem_append] at hr'
          rcases hr' with hr1 | hr2
          · obtain ⟨c1, hc1, c2, hc2, hy, hyh, hlt⟩ := hmf.2 r' hr1
            rw [hy]
            have hle : s0.bStart ≤ c1.bEnd := by
              rcases List.mem_cons.mp hc1 with hcc | hcc
              · subst hcc
                exact le_of_lt (hse c1 (by simp))
              · have h1 := (List.pairwise_cons.mp hpw).1 c1 (by simp [hcc])
                have h2 := hse s0 (by simp)
                have h3 := hse c1 (by simp [hcc])
                omega
            have : (s0.bStart : ℚ) ≤ (c1.bEnd : ℚ) := by exact_mod_cast hle
            linarith
          · by_cases hcond2 : (h : ℚ) * (1/10) < (h : ℚ) - ((rest.getLastD s0).bEnd : ℚ)
            · rw [if_pos hcond2] at hr2
              simp only [List.mem_singleton] at hr2
              subst hr2
              show _ ≤ ((rest.getLastD s0).bEnd : ℚ)
              have := mem_band_le_getLastD rest s0 hpw hse s0 (by simp)
              have hcast : (s0.bStart : ℚ) < ((rest.getLastD s0).bEnd : ℚ) := by
                exact_mod_cast this
              linarith
            · rw [if_neg hcond2] at hr2
              simp at hr2
        · rw [if_neg hcond] at hr
          simp at hr
    · intro r hr
      rw [candidateRows, List.mem_append, List.mem_append] at hr
      rcases hr with (hr1 | hr2) | hr3
      · by_cases hcond : (h : ℚ) * (1/10) < (s0.bStart : ℚ)
        · rw [if_pos hcond] at hr1
          simp only [List.mem_singleton] at hr1
          subst hr1
          refine ⟨0, s0.bStart, by simp, by simp, ?_, ?_⟩
          · have : (0 : ℚ) < (s0.bStart : ℚ) := by linarith
            exact_mod_cast this
          · have := hse s0 (by simp)
            have := hub s0 (by simp)
            omega
        · rw [if_neg hcond] at hr1
          simp at hr1
      · exact hmidfacts r hr2
      · by_cases hcond : (h : ℚ) * (1/10) < (h : ℚ) - ((rest.getLastD s0).bEnd : ℚ)
        · rw [if_pos hcond] at hr3
          simp only [List.mem_singleton] at hr3
          subst hr3
          refine ⟨(rest.getLastD s0).bEnd, h, by simp, by push_cast; ring, ?_, le_refl h⟩
          have : ((rest.getLastD s0).bEnd : ℚ) < (h : ℚ) := by linarith
          exact_mod_cast this
        · rw [if_neg hcond] at hr3
          simp at hr3

theorem detectShelfRows_rows_facts (mat : List (List ℚ)) :
    List.Pairwise (fun r1 r2 : ShelfRow => r1.y + r1.height ≤ r2.y) (detectShelfRows mat) ∧
    (1 ≤ mat.length → ∀ r ∈ detectShelfRows mat, ∃ a b : ℕ,
      r.y = (a : ℚ) ∧ r.y + r.height = (b : ℚ) ∧ a < b ∧ b ≤ mat.length) := by
  have hcf := candidateRows_facts mat.length (separatorsOf mat) (separators_pairwise mat)
    (fun b hb => (separators_mem_facts mat b hb).1)
    (fun b hb => (separators_mem_facts mat b hb).2)
  unfold detectShelfRows
  by_cases h1 : separatorsOf mat = []
  · rw [if_pos h1]
    refine ⟨by simp, ?_⟩
    intro hh r hr
    simp only [List.mem_singleton] at hr
    subst hr
    exact ⟨0, mat.length, by simp, by simp, by omega, le_refl _⟩
  · rw [if_neg h1]
    by_cases h2 : (validRowsOf mat).length < 2
    · rw [if_pos h2]
      refine ⟨by simp, ?_⟩
      intro hh r hr
      simp only [List.mem_singleton] at hr
      subst hr
      exact ⟨0, mat.length, by simp, by simp, by omega, le_refl _⟩
    · rw [if_neg h2]
      constructor
      · exact hcf.1.sublist (List.filter_sublist _)
      · intro _ r hr
        exact hcf.2 r (List.mem_of_mem_filter hr)

/-- **C7.**  For every input matrix, the list returned by `detectShelfRows`
is ordered top-to-bottom and pairwise non-overlapping: for any two rows in
list order, the earlier row ends (`y + height`) at or before the later row
starts (`y`). -/
theorem c7_detectShelfRows_ordered (mat : List (List ℚ)) :
    List.Pairwise (fun r1 r2 : ShelfRow => r1.y + r1.height ≤ r2.y) (detectShelfRows mat) :=
  (detectShelfRows_rows_facts mat).1

theorem bandsAux_all_false (minBand : ℚ) : ∀ (n y : ℕ),
    bandsAux minBand (List.replicate n false) y none = [] := by
  intro n
  induction n with
  | zero => intro y; rfl
  | succ m ih =>
    intro y
    rw [List.replicate_succ, bandsAux, if_neg (by simp)]
    exact ih (y + 1)

theorem rowPixelSum_replicate (w : ℕ) (c : ℚ) :
    rowPixelSum w (List.replicate w c) = (w : ℚ) * c := by
  unfold rowPixelSum
  have hcongr : ∀ x ∈ List.range w, (List.replicate w c).getD x 0 = c := by
    intro x hx
    rw [List.getD_eq_getElem?_getD, List.getElem?_replicate,
      if_pos (List.mem_range.mp hx)]
    rfl
  rw [List.map_congr_left hcongr]
  have : (List.range w).map (fun _ => c) = List.replicate w c := by
    rw [List.map_const']
    simp
  rw [this, List.sum_replicate]
  simp [nsmul_eq_mul]

theorem listAvg_replicate (n : ℕ) (v : ℚ) (hn : n ≠ 0) :
    listAvg (List.replicate n v) = v := by
  unfold listAvg
  rw [List.sum_replicate, List.length_replicate, nsmul_eq_mul, mul_div_assoc, mul_comm]
  exact div_mul_cancel₀ v (Nat.cast_ne_zero.mpr hn)

theorem smoothedList_const (mat : List (List ℚ)) (v : ℚ)
    (hrb : rowBrightnessList mat = List.replicate mat.length v) :
    smoothedList mat = List.replicate mat.length v := by
  unfold smoothedList
  rw [hrb]
  have hcongr : ∀ i ∈ List.range mat.length,
      (let lo := i - smoothWindow mat.length
       let hi := min (mat.length - 1) (i + smoothWindow mat.length)
       let vals := (List.range (hi + 1 - lo)).map
         (fun k => (List.replicate mat.length v).getD (lo + k) 0)
       vals.sum / (vals.length : ℚ)) = v := by
    intro i hi
    have hilt : i < mat.length := List.mem_range.mp hi
    simp only
    have hvals : ∀ k ∈ List.range (min (mat.length - 1) (i + smoothWindow mat.length) + 1 -
        (i - smoothWindow mat.length)),
        (List.replicate mat.length v).getD ((i - smoothWindow mat.length) + k) 0 = v := by
      intro k hk
      have hklt := List.mem_range.mp hk
      rw [List.getD_eq_getElem?_getD, List.getElem?_replicate, if_pos (by omega)]
      rfl
    rw [List.map_congr_left hvals]
    set cnt := min (mat.length - 1) (i + smoothWindow mat.length) + 1 -
      (i - smoothWindow mat.length) with hcnt
    have hcpos : 0 < cnt := by omega
    have : (List.range cnt).map (fun _ => v) = List.replicate cnt v := by
      rw [List.map_const']
      simp
    rw [this, List.sum_replicate, List.length_replicate, nsmul_eq_mul, mul_div_assoc, mul_comm]
    exact div_mul_cancel₀ v (Nat.cast_ne_zero.mpr (by omega))
  rw [List.map_congr_left hcongr]
  rw [List.map_const']
  simp

theorem matWidth_replicate_succ (n w : ℕ) (c : ℚ) :
    matWidth (List.replicate (n + 1) (List.replicate w c)) = w := by
  rw [List.replicate_succ]
  simp [matWidth]

theorem detectShelfRows_uniform (h w : ℕ) (c : ℚ) (hc : 0 ≤ c) :
    detectShelfRows (List.replicate h (List.replicate w c)) = [⟨0, (h : ℚ)⟩] := by
  have hsep : separatorsOf (List.replicate h (List.replicate w c)) = [] := by
    rcases Nat.eq_zero_or_pos h with h0 | hpos
    · subst h0
      rfl
    · set mat := List.replicate h (List.replicate w c) with hmat
      have hlen : mat.length = h := by simp [hmat]
      set v : ℚ := rowPixelSum (matWidth mat) (List.replicate w c) / (matWidth mat : ℚ)
        with hv
      have hw : matWidth mat = w := by
        obtain ⟨m, rfl⟩ := Nat.exists_eq_succ_of_ne_zero (by omega : h ≠ 0)
        exact matWidth_replicate_succ m w c
      have hv0 : 0 ≤ v := by
        rw [hv, hw, rowPixelSum_replicate]
        positivity
      have hrb : rowBrightnessList mat = List.replicate mat.length v := by
        unfold rowBrightnessList
        rw [hmat]
        rw [List.map_replicate]
        simp [hlen, hv, hmat]
      have hsm := smoothedList_const mat v hrb
      have havg : darkThresholdOf mat = v * (2/5) := by
        unfold darkThresholdOf
        rw [hsm, hlen, listAvg_replicate h v (by omega)]
      have hflags : darkFlags mat = List.replicate h false := by
        unfold darkFlags
        rw [hsm, havg, List.map_replicate, hlen]
        have : decide (v < v * (2/5)) = false := by
          rw [decide_eq_false_iff_not]
          intro hcon
          nlinarith
        rw [this]
      unfold separatorsOf darkBands
      rw [hflags, hlen, bandsAux_all_false]
      rfl
  unfold detectShelfRows
  rw [if_pos hsep]
  simp

/-- **C5.**  `detectShelfRows` fails open: if no qualifying dark band remains
after the middle-70% filter, or fewer than two candidate rows survive the
15%-of-height filter, it returns exactly one `ShelfRow` `{y: 0, height:
imageHeight}`; in particular an all-uniform-brightness image (every pixel the
same non-negative value) always yields that single full-image row. -/
theorem c5_detectShelfRows_failopen (mat : List (List ℚ)) (h w : ℕ) (c : ℚ) :
    ((separatorsOf mat = [] ∨ (validRowsOf mat).length < 2) →
      detectShelfRows mat = [⟨0, (mat.length : ℚ)⟩]) ∧
    (0 ≤ c →
      detectShelfRows (List.replicate h (List.replicate w c)) = [⟨0, (h : ℚ)⟩]) := by
  constructor
  · intro hor
    unfold detectShelfRows
    by_cases h1 : separatorsOf mat = []
    · rw [if_pos h1]
    · rw [if_neg h1]
      rw [if_pos (hor.resolve_left h1)]
  · exact detectShelfRows_uniform h w c

/-- Witness for C5 at concrete inputs: the 1×1 black image (no separators
survive), and the uniform 3×3 image of brightness 100. -/
theorem c5_detectShelfRows_failopen_witness :
    detectShelfRows [[(0 : ℚ)]] = [⟨0, (([[(0 : ℚ)]] : List (List ℚ)).length : ℚ)⟩] ∧
    detectShelfRows (List.replicate 3 (List.replicate 3 (100 : ℚ))) = [⟨0, ((3 : ℕ) : ℚ)⟩] :=
  ⟨(c5_detectShelfRows_failopen [[(0 : ℚ)]] 3 3 100).1
      (Or.inl (by norm_num [separatorsOf, darkBands, darkFlags, smoothedList,
        rowBrightnessList, rowPixelSum, matWidth, smoothWindow, listAvg,
        darkThresholdOf, bandsAux])),
    (c5_detectShelfRows_failopen [[(0 : ℚ)]] 3 3 100).2 (by norm_num)⟩

theorem reindexSpines_length (l : List DetectedSpine) : ∀ n : ℕ,
    (reindexSpines n l).length = l.length := by
  induction l with
  | nil => intro n; rfl
  | cons s rest ih =>
    intro n
    simp [reindexSpines, ih]

theorem reindexSpines_index (l : List DetectedSpine) : ∀ (n i : ℕ)
    (hi : i < (reindexSpines n l).length),
    ((reindexSpines n l).get ⟨i, hi⟩).index = n + i := by
  induction l with
  | nil =>
    intro n i hi
    simp [reindexSpines] at hi
  | cons s rest ih =>
    intro n i hi
    match i with
    | 0 => simp [reindexSpines]
    | j + 1 =>
      have := ih (n + 1) j (by simpa [reindexSpines] using hi)
      simp only [reindexSpines, List.get_cons_succ]
      rw [this]
      omega

theorem filter_length_split (l : List DetectedSpine) (p : DetectedSpine → Bool) :
    (l.filter p).length + (l.filter (fun a => !(p a))).length = l.length := by
  induction l with
  | nil => rfl
  | cons s rest ih =>
    by_cases h : p s
    · simp [List.filter_cons, h, ih]
      omega
    · simp only [List.filter_cons, h, Bool.false_eq_true, if_false, Bool.not_false,
        Bool.not_eq_true', if_true]
      simp only [h, Bool.not_false, if_true, List.length_cons]
      omega

theorem qualityFilter_pred_eq (originalWidth : ℚ) (channels : BoundingBox → List ℚ)
    (s : DetectedSpine) :
    (!decide (s.boundingBox.width < originalWidth * (15/1000)) &&
      !decide (spineAvgBrightness (channels s.boundingBox) < 20)) =
    (decide (originalWidth * (15/1000) ≤ s.boundingBox.width) &&
      decide ((20 : ℚ) ≤ spineAvgBrightness (channels s.boundingBox))) := by
  simp only [← decide_not, not_lt]

/-- **C6.**  After the post-aggregation quality filter of `detectSpines`:
(1) a spine survives iff its bounding-box width is at least 1.5% of the full
image width *and* its mean channel brightness is at least 20 (of 255), the
survivors keeping their list order; (2) surviving spines carry index values
contiguous from 0 in list order; (3) `filteredCount` equals the number of
discarded candidates. -/
theorem c6_spineQualityFilter_spec (allSpines : List DetectedSpine) (originalWidth : ℚ)
    (channels : BoundingBox → List ℚ) :
    (spineQualityFilter allSpines originalWidth channels).1 =
      reindexSpines 0 (allSpines.filter (fun s =>
        decide (originalWidth * (15/1000) ≤ s.boundingBox.width) &&
          decide ((20 : ℚ) ≤ spineAvgBrightness (channels s.boundingBox)))) ∧
    (∀ (i : ℕ) (hi : i < (spineQualityFilter allSpines originalWidth channels).1.length),
      ((spineQualityFilter allSpines originalWidth channels).1.get ⟨i, hi⟩).index = i) ∧
    (spineQualityFilter allSpines originalWidth channels).2 =
      (allSpines.filter (fun s =>
        !(decide (originalWidth * (15/1000) ≤ s.boundingBox.width) &&
          decide ((20 : ℚ) ≤ spineAvgBrightness (channels s.boundingBox))))).length := by
  have hpred : allSpines.filter (fun s =>
      !decide (s.boundingBox.width < originalWidth * (15/1000)) &&
        !decide (spineAvgBrightness (channels s.boundingBox) < 20)) =
      allSpines.filter (fun s =>
        decide (originalWidth * (15/1000) ≤ s.boundingBox.width) &&
          decide ((20 : ℚ) ≤ spineAvgBrightness (channels s.boundingBox))) :=
    List.filter_congr (fun s _ => qualityFilter_pred_eq originalWidth channels s)
  refine ⟨?_, ?_, ?_⟩
  · show reindexSpines 0 _ = _
    rw [hpred]
  · intro i hi
    have := reindexSpines_index (allSpines.filter (fun s =>
      !decide (s.boundingBox.width < originalWidth * (15/1000)) &&
        !decide (spineAvgBrightness (channels s.boundingBox) < 20))) 0 i hi
    simpa using this
  · show allSpines.length - (allSpines.filter _).length = _
    rw [hpred]
    have hsplit := filter_length_split allSpines (fun s =>
      decide (originalWidth * (15/1000) ≤ s.boundingBox.width) &&
        decide ((20 : ℚ) ≤ spineAvgBrightness (channels s.boundingBox)))
    omega

/-- Witness for C6 at a concrete input: two candidate spines on a
1000-pixel-wide image (`minWidth = 15`), one 50 px wide (kept) and one 1 px
wide (discarded by the width filter); every crop reports a single channel of
mean 100. -/
theorem c6_spineQualityFilter_spec_witness :
    (spineQualityFilter [⟨5, ⟨0, 0, 50, 100⟩, none, none⟩, ⟨7, ⟨60, 0, 1, 100⟩, none, none⟩]
        1000 channels100).1 =
      reindexSpines 0 (([⟨5, ⟨0, 0, 50, 100⟩, none, none⟩,
          ⟨7, ⟨60, 0, 1, 100⟩, none, none⟩] : List DetectedSpine).filter (fun s =>
        decide ((1000 : ℚ) * (15/1000) ≤ s.boundingBox.width) &&
          decide ((20 : ℚ) ≤ spineAvgBrightness (channels100 s.boundingBox)))) ∧
    (∀ (i : ℕ) (hi : i < (spineQualityFilter [⟨5, ⟨0, 0, 50, 100⟩, none, none⟩,
        ⟨7, ⟨60, 0, 1, 100⟩, none, none⟩] 1000 channels100).1.length),
      ((spineQualityFilter [⟨5, ⟨0, 0, 50, 100⟩, none, none⟩,
        ⟨7, ⟨60, 0, 1, 100⟩, none, none⟩] 1000 channels100).1.get ⟨i, hi⟩).index = i) ∧
    (spineQualityFilter [⟨5, ⟨0, 0, 50, 100⟩, none, none⟩, ⟨7, ⟨60, 0, 1, 100⟩, none, none⟩]
        1000 channels100).2 =
      (([⟨5, ⟨0, 0, 50, 100⟩, none, none⟩,
          ⟨7, ⟨60, 0, 1, 100⟩, none, none⟩] : List DetectedSpine).filter (fun s =>
        !(decide ((1000 : ℚ) * (15/1000) ≤ s.boundingBox.width) &&
          decide ((20 : ℚ) ≤ spineAvgBrightness (channels100 s.boundingBox))))).length :=
  c6_spineQualityFilter_spec
    [⟨5, ⟨0, 0, 50, 100⟩, none, none⟩, ⟨7, ⟨60, 0, 1, 100⟩, none, none⟩] 1000 channels100

theorem rawAngle_vertical_up (s : HoughSegment) (hx : s.x1 = s.x2) (hy : s.y1 < s.y2) :
    rawAngleFromVertical s = 0 := by
  unfold rawAngleFromVertical jsAtan2
  have hdx : ((s.x2 - s.x1 : ℤ) : ℝ) = 0 := by
    rw [hx]; push_cast; ring
  have hdy : (0 : ℝ) < ((s.y2 - s.y1 : ℤ) : ℝ) := by
    push_cast
    have : (s.y1 : ℝ) < (s.y2 : ℝ) := by exact_mod_cast hy
    linarith
  rw [hdx, if_pos hdy, zero_div, Real.arctan_zero, zero_mul, abs_zero]

theorem rawAngle_vertical_down (s : HoughSegment) (hx : s.x1 = s.x2) (hy : s.y2 < s.y1) :
    rawAngleFromVertical s = 180 := by
  unfold rawAngleFromVertical jsAtan2
  have hdx : ((s.x2 - s.x1 : ℤ) : ℝ) = 0 := by
    rw [hx]; push_cast; ring
  have hdy : ((s.y2 - s.y1 : ℤ) : ℝ) < 0 := by
    push_cast
    have : (s.y2 : ℝ) < (s.y1 : ℝ) := by exact_mod_cast hy
    linarith
  rw [hdx, if_neg (by linarith), if_pos ⟨hdy, le_refl 0⟩, zero_div, Real.arctan_zero,
    zero_add, mul_comm, div_mul_cancel₀ _ Real.pi_ne_zero]
  norm_num

theorem findVerticalLines_concrete :
    findVerticalLines [⟨5, 0, 5, 10⟩] DEFAULT_CONFIG = [⟨5, 0, 5, 10, 90, 5⟩] := by
  have hraw : rawAngleFromVertical ⟨5, 0, 5, 10⟩ = 0 :=
    rawAngle_vertical_up ⟨5, 0, 5, 10⟩ rfl (by norm_num)
  unfold findVerticalLines
  rw [List.filterMap_cons]
  simp only [hraw]
  rw [if_pos (Or.inl (by norm_num [DEFAULT_CONFIG]))]
  norm_num

/-- **C4 (amended).**  Every line accepted by `findVerticalLines` stores
`angle = 90 − rawAngleFromVertical` for its segment; consequently a perfectly
vertical segment (`x1 = x2`) is stored with angle `90` when `y1 < y2` and
`−90` when `y2 < y1` — the stored field records deviation from *horizontal*
(90 = vertical), not the claimed 0. -/
theorem c4_findVerticalLines_angle (segments : List HoughSegment) (config : DetectionConfig) :
    ∀ l ∈ findVerticalLines segments config, ∃ s ∈ segments,
      (rawAngleFromVertical s ≤ (config.verticalAngleTolerance : ℝ) ∨
        (180 : ℝ) - (config.verticalAngleTolerance : ℝ) ≤ rawAngleFromVertical s) ∧
      l = ⟨s.x1, s.y1, s.x2, s.y2, 90 - rawAngleFromVertical s,
        ((s.x1 : ℚ) + (s.x2 : ℚ)) / 2⟩ ∧
      (s.x1 = s.x2 → s.y1 < s.y2 → l.angle = 90) ∧
      (s.x1 = s.x2 → s.y2 < s.y1 → l.angle = -90) := by
  intro l hl
  unfold findVerticalLines at hl
  obtain ⟨s, hs, hsome⟩ := List.mem_filterMap.mp hl
  by_cases hcond : rawAngleFromVertical s ≤ (config.verticalAngleTolerance : ℝ) ∨
      (180 : ℝ) - (config.verticalAngleTolerance : ℝ) ≤ rawAngleFromVertical s
  · rw [if_pos hcond] at hsome
    have hl' := (Option.some_inj.mp hsome).symm
    refine ⟨s, hs, hcond, hl', ?_, ?_⟩
    · intro hx hy
      rw [hl']
      show 90 - rawAngleFromVertical s = 90
      rw [rawAngle_vertical_up s hx hy, sub_zero]
    · intro hx hy
      rw [hl']
      show 90 - rawAngleFromVertical s = -90
      rw [rawAngle_vertical_down s hx hy]
      norm_num
  · rw [if_neg hcond] at hsome
    exact absurd hsome (by simp)

/-- Witness for C4 (amended): the perfectly vertical segment `(5,0)-(5,10)`
is accepted under the default 15° tolerance and stored with angle 90. -/
theorem c4_findVerticalLines_angle_witness :
    ∃ s ∈ [(⟨5, 0, 5, 10⟩ : HoughSegment)],
      (rawAngleFromVertical s ≤ ((DEFAULT_CONFIG.verticalAngleTolerance : ℚ) : ℝ) ∨
        (180 : ℝ) - ((DEFAULT_CONFIG.verticalAngleTolerance : ℚ) : ℝ) ≤
          rawAngleFromVertical s) ∧
      (⟨5, 0, 5, 10, 90, 5⟩ : DetectedLineR) = ⟨s.x1, s.y1, s.x2, s.y2,
        90 - rawAngleFromVertical s, ((s.x1 : ℚ) + (s.x2 : ℚ)) / 2⟩ ∧
      (s.x1 = s.x2 → s.y1 < s.y2 → (⟨5, 0, 5, 10, 90, 5⟩ : DetectedLineR).angle = 90) ∧
      (s.x1 = s.x2 → s.y2 < s.y1 → (⟨5, 0, 5, 10, 90, 5⟩ : DetectedLineR).angle = -90) :=
  c4_findVerticalLines_angle [⟨5, 0, 5, 10⟩] DEFAULT_CONFIG ⟨5, 0, 5, 10, 90, 5⟩
    (by rw [findVerticalLines_concrete]; exact List.mem_singleton.mpr rfl)

/-- **C4 (counterexample).**  The perfectly vertical segment `(5,0)-(5,10)`
(`x1 = x2`) is accepted by `findVerticalLines` under the default config and
stored with `angle = 90`, not the claimed 0. -/
theorem c4_counterexample :
    findVerticalLines [⟨5, 0, 5, 10⟩] DEFAULT_CONFIG = [⟨5, 0, 5, 10, 90, 5⟩] ∧
    ((90 : ℝ) ≠ 0) :=
  ⟨findVerticalLines_concrete, by norm_num⟩

theorem jround_cast_nonneg {q : ℚ} (h : 0 ≤ q) : (0 : ℚ) ≤ (jround q : ℚ) := by
  exact_mod_cast jround_nonneg h

theorem resizeDims_le (w h : ℕ) (maxDimension : ℚ)
    (hw : 1 ≤ (resizeDims w h maxDimension).1) (hh : 1 ≤ (resizeDims w h maxDimension).2) :
    (resizeDims w h maxDimension).1 ≤ w ∧ (resizeDims w h maxDimension).2 ≤ h := by
  unfold resizeDims at hw hh ⊢
  by_cases hc : ((max w h : ℕ) : ℚ) ≤ maxDimension
  · rw [if_pos hc]
    exact ⟨le_refl w, le_refl h⟩
  · rw [if_neg hc] at hw hh ⊢
    simp only at hw hh ⊢
    push_neg at hc
    have hM : (0 : ℚ) < ((max w h : ℕ) : ℚ) := by
      rcases Nat.eq_zero_or_pos (max w h) with h0 | hpos
      · exfalso
        rw [h0] at hc
        have hscale : maxDimension / ((0 : ℕ) : ℚ) = 0 := by
          norm_num
        rw [h0, hscale] at hw
        have hmul : ((w : ℚ) * 0) = 0 := by ring
        rw [hmul] at hw
        have hj : jround (0 : ℚ) = 0 := by
          rw [show ((0 : ℚ)) = ((0 : ℤ) : ℚ) by norm_num, jround_intCast]
        rw [hj] at hw
        simp at hw
      · exact_mod_cast hpos
    by_cases hmd : maxDimension ≤ 0
    · exfalso
      have hscale : maxDimension / ((max w h : ℕ) : ℚ) ≤ 0 :=
        div_nonpos_iff.mpr (Or.inr ⟨hmd, le_of_lt hM⟩)
      have hwle : (w : ℚ) * (maxDimension / ((max w h : ℕ) : ℚ)) ≤ 0 :=
        mul_nonpos_of_nonneg_of_nonpos (by positivity) hscale
      have : jround ((w : ℚ) * (maxDimension / ((max w h : ℕ) : ℚ))) ≤ 0 := by
        have := jround_mono hwle
        rw [show jround (0 : ℚ) = 0 from by
          rw [show ((0 : ℚ)) = ((0 : ℤ) : ℚ) by norm_num, jround_intCast]] at this
        exact this
      omega
    · push_neg at hmd
      have hscale1 : maxDimension / ((max w h : ℕ) : ℚ) ≤ 1 :=
        (div_le_one hM).mpr (le_of_lt hc)
      have hscale0 : 0 ≤ maxDimension / ((max w h : ℕ) : ℚ) := by positivity
      constructor
      · have h1 : (w : ℚ) * (maxDimension / ((max w h : ℕ) : ℚ)) ≤ ((w : ℤ) : ℚ) := by
          have hmm := mul_le_mul_of_nonneg_left hscale1 (Nat.cast_nonneg (α := ℚ) w)
          rw [mul_one] at hmm
          exact_mod_cast hmm
        have h2 : jround ((w : ℚ) * (maxDimension / ((max w h : ℕ) : ℚ))) ≤ (w : ℤ) := by
          have := jround_mono h1
          rwa [jround_intCast] at this
        omega
      · have h1 : (h : ℚ) * (maxDimension / ((max w h : ℕ) : ℚ)) ≤ ((h : ℤ) : ℚ) := by
          have hmm := mul_le_mul_of_nonneg_left hscale1 (Nat.cast_nonneg (α := ℚ) h)
          rw [mul_one] at hmm
          exact_mod_cast hmm
        have h2 : jround ((h : ℚ) * (maxDimension / ((max w h : ℕ) : ℚ))) ≤ (h : ℤ) := by
          have := jround_mono h1
          rwa [jround_intCast] at this
        omega

theorem mergeNearbyLines_avgX_bounds (lines : List DetectedLine) (mergeThreshold B : ℚ)
    (hb : ∀ l ∈ lines, 0 ≤ l.x1 ∧ l.x1 ≤ B ∧ 0 ≤ l.x2 ∧ l.x2 ≤ B ∧
      l.avgX = (l.x1 + l.x2) / 2) :
    ∀ m ∈ mergeNearbyLines lines mergeThreshold, 0 ≤ m.avgX ∧ m.avgX ≤ B := by
  intro m hm
  unfold mergeNearbyLines at hm
  obtain ⟨g, hg, rfl⟩ := List.mem_map.mp hm
  have hgne := groupLines_ne_nil mergeThreshold (sortLines lines) g hg
  have hmemlines : ∀ l ∈ g, l ∈ lines := by
    intro l hl
    have hfl : l ∈ (groupLines mergeThreshold (sortLines lines)).flatten :=
      List.mem_flatten.mpr ⟨g, hg, hl⟩
    rw [groupLines_flatten] at hfl
    unfold sortLines at hfl
    exact (List.mem_insertionSort lineLe).mp hfl
  have hcons : ∀ l ∈ g, l.avgX = (l.x1 + l.x2) / 2 :=
    fun l hl => (hb l (hmemlines l hl)).2.2.2.2
  constructor
  · refine le_mergeGroup_avgX g hgne hcons ?_
    intro l hl
    have hb' := hb l (hmemlines l hl)
    rw [hb'.2.2.2.2]
    linarith [hb'.1, hb'.2.2.1]
  · refine mergeGroup_avgX_le g hgne hcons ?_
    intro l hl
    have hb' := hb l (hmemlines l hl)
    rw [hb'.2.2.2.2]
    linarith [hb'.2.1, hb'.2.2.2.1]

theorem calcRegions_box_facts (lines : List DetectedLine) (W H : ℚ)
    (config : DetectionConfig)
    (hb : ∀ l ∈ lines, 0 ≤ l.avgX ∧ l.avgX ≤ W - 1) :
    ∀ r ∈ calculateSpineRegions lines W H config,
      0 ≤ r.boundingBox.x ∧ r.boundingBox.y = 0 ∧ r.boundingBox.height = H ∧
      r.boundingBox.x + r.boundingBox.width ≤ W + 1 := by
  intro r hr
  cases lines with
  | nil =>
    simp only [calculateSpineRegions, List.mem_singleton] at hr
    subst hr
    refine ⟨le_refl 0, rfl, rfl, ?_⟩
    show (0 : ℚ) + W ≤ W + 1
    linarith
  | cons firstLine rest =>
    simp only [calculateSpineRegions] at hr
    rw [List.mem_append, List.mem_append] at hr
    rcases hr with (hr1 | hr2) | hr3
    · -- leading region
      by_cases hcond : spineMinWidth W config < firstLine.avgX ∧
          firstLine.avgX < spineMaxWidth W config
      · rw [if_pos hcond] at hr1
        simp only [List.mem_singleton] at hr1
        subst hr1
        have hfb := hb firstLine (by simp)
        refine ⟨le_refl 0, rfl, rfl, ?_⟩
        have := jround_cast_le firstLine.avgX
        simp only [zero_add]
        linarith [hfb.2]
      · rw [if_neg hcond] at hr1
        simp at hr1
    · -- gap regions
      rw [gapRegionsLoop_eq_filterMap] at hr2
      obtain ⟨p, hp, hsome⟩ := List.mem_filterMap.mp hr2
      have hp1 : p.1 ∈ firstLine :: rest := (List.of_mem_zip hp).1
      have hp2 : p.2 ∈ firstLine :: rest :=
        List.mem_of_mem_tail (List.of_mem_zip hp).2
      by_cases hcond : spineMinWidth W config ≤ p.2.avgX - p.1.avgX ∧
          p.2.avgX - p.1.avgX ≤ spineMaxWidth W config
      · rw [if_pos hcond] at hsome
        have hreq := (Option.some_inj.mp hsome).symm
        subst hreq
        have hb1 := hb p.1 hp1
        have hb2 := hb p.2 hp2
        refine ⟨jround_cast_nonneg hb1.1, rfl, rfl, ?_⟩
        have h1 := jround_cast_le p.1.avgX
        have h2 := jround_cast_le (p.2.avgX - p.1.avgX)
        show (jround p.1.avgX : ℚ) + (jround (p.2.avgX - p.1.avgX) : ℚ) ≤ W + 1
        linarith [hb2.2]
      · rw [if_neg hcond] at hsome
        exact absurd hsome (by simp)
    · -- trailing region
      have hlastmem : rest.getLastD firstLine ∈ firstLine :: rest :=
        List.getLastD_mem_cons rest firstLine
      have hlb := hb (rest.getLastD firstLine) hlastmem
      by_cases hcond : spineMinWidth W config < W - (rest.getLastD firstLine).avgX ∧
          W - (rest.getLastD firstLine).avgX < spineMaxWidth W config
      · rw [if_pos hcond] at hr3
        simp only [List.mem_singleton] at hr3
        subst hr3
        refine ⟨jround_cast_nonneg hlb.1, rfl, rfl, ?_⟩
        have h1 := jround_cast_le (rest.getLastD firstLine).avgX
        have h2 := jround_cast_le (W - (rest.getLastD firstLine).avgX)
        show (jround (rest.getLastD firstLine).avgX : ℚ) +
          (jround (W - (rest.getLastD firstLine).avgX) : ℚ) ≤ W + 1
        linarith
      · rw [if_neg hcond] at hr3
        simp at hr3

theorem extractSpinesAux_mem : ∀ (regions : List SpineRegion) (n : ℕ) (s : DetectedSpine),
    s ∈ extractSpinesAux n regions → ∃ r ∈ regions, s.boundingBox = r.boundingBox := by
  intro regions
  induction regions with
  | nil => intro n s hs; simp [extractSpinesAux] at hs
  | cons r rest ih =>
    intro n s hs
    rw [extractSpinesAux, List.mem_cons] at hs
    rcases hs with hs1 | hs2
    · exact ⟨r, by simp, by rw [hs1]⟩
    · obtain ⟨r', hr', hbox⟩ := ih (n + 1) s hs2
      exact ⟨r', by simp [hr'], hbox⟩

theorem reindexSpines_mem : ∀ (l : List DetectedSpine) (n : ℕ) (s : DetectedSpine),
    s ∈ reindexSpines n l → ∃ s0 ∈ l, s.boundingBox = s0.boundingBox := by
  intro l
  induction l with
  | nil => intro n s hs; simp [reindexSpines] at hs
  | cons s0 rest ih =>
    intro n s hs
    rw [reindexSpines, List.mem_cons] at hs
    rcases hs with hs1 | hs2
    · exact ⟨s0, by simp, by rw [hs1]⟩
    · obtain ⟨s1, hs1, hbox⟩ := ih (n + 1) s hs2
      exact ⟨s1, by simp [hs1], hbox⟩

theorem accumRows_mem (origW origH scaleX scaleY : ℚ) (config : DetectionConfig)
    (rowLines : ℕ → List DetectedLine) :
    ∀ (rows : List ShelfRow) (i count : ℕ) (s : DetectedSpine),
      s ∈ accumRows origW origH scaleX scaleY config rowLines i count rows →
      ∃ j cnt, ∃ row ∈ rows,
        s ∈ processRow origW origH scaleX scaleY config cnt (rowLines j) row := by
  intro rows
  induction rows with
  | nil => intro i count s hs; simp [accumRows] at hs
  | cons row rest ih =>
    intro i count s hs
    rw [accumRows, List.mem_append] at hs
    rcases hs with hs1 | hs2
    · exact ⟨i, count, row, by simp, hs1⟩
    · obtain ⟨j, cnt, row', hrow', hmem⟩ := ih (i + 1) _ s hs2
      exact ⟨j, cnt, row', by simp [hrow'], hmem⟩

theorem processRow_boxes (origW origH : ℕ) (scaleX scaleY : ℚ) (config : DetectionConfig)
    (startIdx : ℕ) (rawLines : List DetectedLine) (row : ShelfRow) (B : ℚ)
    (hW : 1 ≤ origW)
    (hsx0 : 0 ≤ scaleX) (hsy0 : 0 ≤ scaleY)
    (hBs : B * scaleX ≤ (origW : ℚ) - 1)
    (hraw : ∀ l ∈ rawLines, 0 ≤ l.x1 ∧ l.x1 ≤ B ∧ 0 ≤ l.x2 ∧ l.x2 ≤ B ∧
      l.avgX = (l.x1 + l.x2) / 2)
    (hrow0 : 0 ≤ row.y) (hrowh : 0 ≤ row.height)
    (hrowY : row.y * scaleY ≤ (origH : ℚ) - 1) :
    ∀ s ∈ processRow (origW : ℚ) (origH : ℚ) scaleX scaleY config startIdx rawLines row,
      0 ≤ s.boundingBox.x ∧ 0 ≤ s.boundingBox.y ∧
      s.boundingBox.x + s.boundingBox.width ≤ (origW : ℚ) + 1 ∧
      s.boundingBox.y + s.boundingBox.height ≤ (origH : ℚ) := by
  intro s hs
  have hoy0 : (0 : ℚ) ≤ (jround (row.y * scaleY) : ℚ) :=
    jround_cast_nonneg (mul_nonneg hrow0 hsy0)
  have hoyH : (jround (row.y * scaleY) : ℚ) ≤ (origH : ℚ) - 1 := by
    have h1 := jround_cast_le (row.y * scaleY)
    have h2 : (jround (row.y * scaleY) : ℚ) < (origH : ℚ) := by linarith
    have h3 : jround (row.y * scaleY) < (origH : ℤ) := by exact_mod_cast h2
    have h4 : jround (row.y * scaleY) ≤ (origH : ℤ) - 1 := by omega
    calc (jround (row.y * scaleY) : ℚ) ≤ (((origH : ℤ) - 1 : ℤ) : ℚ) := by exact_mod_cast h4
      _ = (origH : ℚ) - 1 := by push_cast; ring
  have hW1 : (0 : ℚ) ≤ (origW : ℚ) - 1 := by
    have : (1 : ℚ) ≤ (origW : ℚ) := by exact_mod_cast hW
    linarith
  have hc1 : (cropDims (origW : ℚ) (origH : ℚ) 0 (jround (row.y * scaleY) : ℚ) (origW : ℚ)
      (jround (row.height * scaleY) : ℚ)).1 = 0 := by
    show max 0 (min 0 ((origW : ℚ) - 1)) = 0
    rw [min_eq_left hW1, max_self]
  have hc2 : (cropDims (origW : ℚ) (origH : ℚ) 0 (jround (row.y * scaleY) : ℚ) (origW : ℚ)
      (jround (row.height * scaleY) : ℚ)).2.1 = (jround (row.y * scaleY) : ℚ) := by
    show max 0 (min (jround (row.y * scaleY) : ℚ) ((origH : ℚ) - 1)) = _
    rw [min_eq_left hoyH, max_eq_right hoy0]
  have hc3 : (cropDims (origW : ℚ) (origH : ℚ) 0 (jround (row.y * scaleY) : ℚ) (origW : ℚ)
      (jround (row.height * scaleY) : ℚ)).2.2.1 = (origW : ℚ) := by
    show min (origW : ℚ) ((origW : ℚ) - max 0 (min 0 ((origW : ℚ) - 1))) = _
    rw [min_eq_left hW1, max_self, sub_zero, min_self]
  have hc4 : (cropDims (origW : ℚ) (origH : ℚ) 0 (jround (row.y * scaleY) : ℚ) (origW : ℚ)
      (jround (row.height * scaleY) : ℚ)).2.2.2 =
      min (jround (row.height * scaleY) : ℚ) ((origH : ℚ) - (jround (row.y * scaleY) : ℚ)) := by
    show min (jround (row.height * scaleY) : ℚ)
      ((origH : ℚ) - max 0 (min (jround (row.y * scaleY) : ℚ) ((origH : ℚ) - 1))) = _
    rw [min_eq_left hoyH, max_eq_right hoy0]
  simp only [processRow] at hs
  rw [hc3, hc4] at hs
  rw [List.mem_map] at hs
  obtain ⟨s0, hs0, rfl⟩ := hs
  unfold extractSpines at hs0
  obtain ⟨r, hr, hbox⟩ := extractSpinesAux_mem _ 0 s0 hs0
  have hlines' : ∀ l ∈ ((detectVerticalLinesM rawLines).map
      (scaleLine scaleX scaleY row.y)).map (relLine (jround (row.y * scaleY) : ℚ)),
      0 ≤ l.avgX ∧ l.avgX ≤ (origW : ℚ) - 1 := by
    intro l hl
    obtain ⟨l1, hl1, rfl⟩ := List.mem_map.mp hl
    obtain ⟨m, hm, rfl⟩ := List.mem_map.mp hl1
    have hm' : m ∈ mergeNearbyLines rawLines 8 := by
      unfold detectVerticalLinesM sortLines at hm
      exact (List.mem_insertionSort lineLe).mp hm
    have hmb := mergeNearbyLines_avgX_bounds rawLines 8 B hraw m hm'
    constructor
    · show 0 ≤ m.avgX * scaleX
      exact mul_nonneg hmb.1 hsx0
    · show m.avgX * scaleX ≤ (origW : ℚ) - 1
      calc m.avgX * scaleX ≤ B * scaleX := mul_le_mul_of_nonneg_right hmb.2 hsx0
        _ ≤ (origW : ℚ) - 1 := hBs
  have hfacts := calcRegions_box_facts _ (origW : ℚ)
    (min (jround (row.height * scaleY) : ℚ) ((origH : ℚ) - (jround (row.y * scaleY) : ℚ)))
    config hlines' r hr
  obtain ⟨hx0, hy0, hht, hxw⟩ := hfacts
  have hbx : s0.boundingBox.x = r.boundingBox.x := by rw [hbox]
  have hby : s0.boundingBox.y = r.boundingBox.y := by rw [hbox]
  have hbw : s0.boundingBox.width = r.boundingBox.width := by rw [hbox]
  have hbh : s0.boundingBox.height = r.boundingBox.height := by rw [hbox]
  refine ⟨?_, ?_, ?_, ?_⟩
  · show 0 ≤ s0.boundingBox.x
    rw [hbx]
    exact hx0
  · show 0 ≤ s0.boundingBox.y + (jround (row.y * scaleY) : ℚ)
    rw [hby, hy0]
    linarith
  · show s0.boundingBox.x + s0.boundingBox.width ≤ (origW : ℚ) + 1
    rw [hbx, hbw]
    exact hxw
  · show s0.boundingBox.y + (jround (row.y * scaleY) : ℚ) + s0.boundingBox.height ≤ (origH : ℚ)
    rw [hby, hy0, hbh, hht]
    have hmin : min (jround (row.height * scaleY) : ℚ)
        ((origH : ℚ) - (jround (row.y * scaleY) : ℚ)) ≤
        (origH : ℚ) - (jround (row.y * scaleY) : ℚ) := min_le_right _ _
    linarith

/-- **C1 (amended).**  For every valid image and config (positive dimensions,
working-resolution matrix consistent with `resizeIfNeeded`, Hough lines inside
the working-resolution row with `avgX = (x1+x2)/2`), every `DetectedSpine` in
the result of `detectSpines` has a bounding box with `x ≥ 0`, `y ≥ 0`, and
`y + height ≤ imageHeight`, but only `x + width ≤ imageWidth + 1`: the
`Math.round`-based trailing-region arithmetic can overshoot the right image
edge by exactly one pixel (see the counterexample), so strict containment in
`[0, imageWidth)` fails while containment with a one-pixel slack on the right
holds. -/
theorem c1_detectSpines_boxes (origW origH : ℕ) (config : DetectionConfig)
    (resizedMat : List (List ℚ)) (rowLines : ℕ → List DetectedLine)
    (channels : BoundingBox → List ℚ)
    (hW : 1 ≤ origW) (hH : 1 ≤ origH)
    (hres : (matWidth resizedMat, resizedMat.length) =
      resizeDims origW origH config.maxImageDimension)
    (hrw : 1 ≤ matWidth resizedMat) (hrh : 1 ≤ resizedMat.length)
    (hlines : ∀ i, ∀ l ∈ rowLines i, 0 ≤ l.x1 ∧ l.x1 ≤ (matWidth resizedMat : ℚ) - 1 ∧
      0 ≤ l.x2 ∧ l.x2 ≤ (matWidth resizedMat : ℚ) - 1 ∧ l.avgX = (l.x1 + l.x2) / 2) :
    ∀ s ∈ (detectSpines origW origH config resizedMat rowLines channels).spines,
      0 ≤ s.boundingBox.x ∧ 0 ≤ s.boundingBox.y ∧
      s.boundingBox.x + s.boundingBox.width ≤ (origW : ℚ) + 1 ∧
      s.boundingBox.y + s.boundingBox.height ≤ (origH : ℚ) := by
  intro s hs
  have hrd := resizeDims_le origW origH config.maxImageDimension
    (by rw [← hres]; exact hrw) (by rw [← hres]; exact hrh)
  rw [← hres] at hrd
  have hrdw : matWidth resizedMat ≤ origW := hrd.1
  have hrdh : resizedMat.length ≤ origH := hrd.2
  have hMW0 : (0 : ℚ) < (matWidth resizedMat : ℚ) := by exact_mod_cast hrw
  have hMH0 : (0 : ℚ) < (resizedMat.length : ℚ) := by exact_mod_cast hrh
  have hsx1 : (1 : ℚ) ≤ (origW : ℚ) / (matWidth resizedMat : ℚ) :=
    (one_le_div hMW0).mpr (by exact_mod_cast hrdw)
  have hsy1 : (1 : ℚ) ≤ (origH : ℚ) / (resizedMat.length : ℚ) :=
    (one_le_div hMH0).mpr (by exact_mod_cast hrdh)
  have hsx0 : (0 : ℚ) ≤ (origW : ℚ) / (matWidth resizedMat : ℚ) := by linarith
  have hsy0 : (0 : ℚ) ≤ (origH : ℚ) / (resizedMat.length : ℚ) := by linarith
  have hBs : ((matWidth resizedMat : ℚ) - 1) * ((origW : ℚ) / (matWidth resizedMat : ℚ)) ≤
      (origW : ℚ) - 1 := by
    have hexp : ((matWidth resizedMat : ℚ) - 1) * ((origW : ℚ) / (matWidth resizedMat : ℚ)) =
        (origW : ℚ) - (origW : ℚ) / (matWidth resizedMat : ℚ) := by
      field_simp
      ring
    rw [hexp]
    linarith
  have hrows := (detectShelfRows_rows_facts resizedMat).2 hrh
  simp only [detectSpines] at hs
  simp only [spineQualityFilter] at hs
  obtain ⟨s1, hs1, hbox1⟩ := reindexSpines_mem _ 0 s hs
  have hs2 := List.mem_of_mem_filter hs1
  obtain ⟨j, cnt, row, hrowmem, hproc⟩ := accumRows_mem _ _ _ _ _ _ _ 0 0 s1 hs2
  obtain ⟨a, b, hya, hyb, hab, hbub⟩ := hrows row hrowmem
  have hrow0 : 0 ≤ row.y := by rw [hya]; positivity
  have hrowh : 0 ≤ row.height := by
    have hcast : (a : ℚ) ≤ (b : ℚ) := by exact_mod_cast le_of_lt hab
    have : row.y + row.height = (b : ℚ) := hyb
    rw [hya] at this
    linarith
  have hrowY : row.y * ((origH : ℚ) / (resizedMat.length : ℚ)) ≤ (origH : ℚ) - 1 := by
    have halen : a ≤ resizedMat.length - 1 := by omega
    have hacast : (a : ℚ) ≤ (resizedMat.length : ℚ) - 1 := by
      have h1 : ((resizedMat.length - 1 : ℕ) : ℚ) = (resizedMat.length : ℚ) - 1 := by
        have := hrh
        push_cast [Nat.cast_sub (by omega : 1 ≤ resizedMat.length)]
        ring
      rw [← h1]
      exact_mod_cast halen
    rw [hya]
    calc (a : ℚ) * ((origH : ℚ) / (resizedMat.length : ℚ))
        ≤ ((resizedMat.length : ℚ) - 1) * ((origH : ℚ) / (resizedMat.length : ℚ)) :=
          mul_le_mul_of_nonneg_right hacast hsy0
      _ = (origH : ℚ) - (origH : ℚ) / (resizedMat.length : ℚ) := by
          field_simp
          ring
      _ ≤ (origH : ℚ) - 1 := by linarith
  have hfacts := processRow_boxes origW origH
    ((origW : ℚ) / (matWidth resizedMat : ℚ)) ((origH : ℚ) / (resizedMat.length : ℚ))
    config cnt (rowLines j) row ((matWidth resizedMat : ℚ) - 1)
    hW hsx0 hsy0 hBs (hlines j) hrow0 hrowh hrowY s1 hproc
  rw [hbox1]
  exact hfacts

theorem detectSpines_concrete_eval :
    (detectSpines 20 20 DEFAULT_CONFIG uniformMat20 rowLines20 channels100).spines =
      [⟨0, ⟨19, 0, 2, 20⟩, some ⟨18, 0, 19, 19, 0, 37/2⟩, none⟩] := by
  have hrows : detectShelfRows uniformMat20 = [⟨0, 20⟩] := by
    have := detectShelfRows_uniform 20 20 100 (by norm_num)
    simpa [uniformMat20] using this
  simp only [detectSpines]
  rw [hrows, show matWidth uniformMat20 = 20 from by decide,
    show uniformMat20.length = 20 from by decide]
  norm_num [accumRows, processRow, detectVerticalLinesM, mergeNearbyLines, sortLines,
    List.insertionSort, List.orderedInsert, groupLines, groupLinesAux, mergeGroup,
    scaleLine, relLine, cropDims, extractSpines, extractSpinesAux, calculateSpineRegions,
    gapRegionsLoop, spineMinWidth, spineMaxWidth, DEFAULT_CONFIG, jround, rowLines20,
    spineQualityFilter, spineAvgBrightness, channels100, reindexSpines, lineLe,
    min_def, max_def]

/-- **C1 (counterexample).**  A realistic 20×20 image (no resizing, scale 1)
whose single shelf row contains one vertical Hough line with endpoints
`(18,0)-(19,19)` — so `avgX = 18.5`, satisfying `avgX = (x1+x2)/2` and lying
inside the working matrix — produces a surviving trailing spine whose
bounding box is `{x: 19, y: 0, width: 2, height: 20}`: `x + width = 21 > 20 =
imageWidth`, because `Math.round(18.5) = 19` and `Math.round(20 − 18.5) = 2`
jointly overshoot by one.  The box is therefore *not* contained in
`[0, imageWidth)`. -/
theorem c1_counterexample :
    (detectSpines 20 20 DEFAULT_CONFIG uniformMat20 rowLines20 channels100).spines.map
        (fun s => s.boundingBox) = [⟨19, 0, 2, 20⟩] ∧
    ¬ ((19 : ℚ) + 2 ≤ (20 : ℚ)) := by
  constructor
  · rw [detectSpines_concrete_eval]
    rfl
  · norm_num

/-- Witness for C1 (amended) at the same concrete input: the surviving spine's
box satisfies the amended bounds (`x + width = 21 ≤ imageWidth + 1`). -/
theorem c1_detectSpines_boxes_witness :
    0 ≤ ((⟨0, ⟨19, 0, 2, 20⟩, some ⟨18, 0, 19, 19, 0, 37/2⟩, none⟩ :
        DetectedSpine)).boundingBox.x ∧
    0 ≤ ((⟨0, ⟨19, 0, 2, 20⟩, some ⟨18, 0, 19, 19, 0, 37/2⟩, none⟩ :
        DetectedSpine)).boundingBox.y ∧
    ((⟨0, ⟨19, 0, 2, 20⟩, some ⟨18, 0, 19, 19, 0, 37/2⟩, none⟩ :
        DetectedSpine)).boundingBox.x +
      ((⟨0, ⟨19, 0, 2, 20⟩, some ⟨18, 0, 19, 19, 0, 37/2⟩, none⟩ :
        DetectedSpine)).boundingBox.width ≤ ((20 : ℕ) : ℚ) + 1 ∧
    ((⟨0, ⟨19, 0, 2, 20⟩, some ⟨18, 0, 19, 19, 0, 37/2⟩, none⟩ :
        DetectedSpine)).boundingBox.y +
      ((⟨0, ⟨19, 0, 2, 20⟩, some ⟨18, 0, 19, 19, 0, 37/2⟩, none⟩ :
        DetectedSpine)).boundingBox.height ≤ ((20 : ℕ) : ℚ) :=
  c1_detectSpines_boxes 20 20 DEFAULT_CONFIG uniformMat20 rowLines20 channels100
    (by norm_num) (by norm_num)
    (by rw [show matWidth uniformMat20 = 20 from by decide,
          show uniformMat20.length = 20 from by decide]
        norm_num [resizeDims, DEFAULT_CONFIG])
    (by rw [show matWidth uniformMat20 = 20 from by decide]; norm_num)
    (by rw [show uniformMat20.length = 20 from by decide]; norm_num)
    (by intro i l hl
        rw [show matWidth uniformMat20 = 20 from by decide]
        simp only [rowLines20, List.mem_singleton] at hl
        subst hl
        norm_num)
    ⟨0, ⟨19, 0, 2, 20⟩, some ⟨18, 0, 19, 19, 0, 37/2⟩, none⟩
    (by rw [detectSpines_concrete_eval]; exact List.mem_singleton.mpr rfl)
